import Mathlib

/-!
Verification development for the HTML-to-Google-Docs request compiler
(`convert-2-gdocs`): a shallow embedding of the block extractor
(`parseHtmlToBlocks`), the request generator (`blocksToRequests`), the
streaming `TextAggregator`, and the `GoogleDocConverter.convertHtml`
entry point, together with theorems about the properties stated in the
specification.

Conventions of the embedding:
* JavaScript numbers that are used as character offsets, counters and
  spans are modelled as `Nat`;
* JavaScript string operations (`trim`, `replace(/\s+$/ , ...)`,
  `replace(/\s+/g, " ")`, `parseInt`) are re-implemented over `List Char`
  with the JS notion of whitespace;
* the DOM tree produced by the external markup parser (cheerio) is
  modelled by the mutually inductive types `HNode`/`HElem`/`HNodes`;
  the core never parses raw markup itself;
* optional JS object fields are `Option` fields, and a deleted /
  never-assigned field is `none`; a JS boolean field that may be absent
  is modelled as `Bool` (absent ≡ `false`, both being falsy);
* JS dictionaries (`Record<string, unknown>`) are association lists with
  `String` keys, compared through `List.lookup`; object spread
  `\x7b...a, ...b\x7d` is `jsSpread a b`.
-/

namespace GDoc

/-! ## JavaScript string primitives -/

/-- JS `\s` on the ASCII range: space, tab, newline, carriage return,
vertical tab, form feed. -/
def jsIsWs (c : Char) : Bool :=
  c = ' ' || c = '\t' || c = '\n' || c = '\r' || c = '\x0b' || c = '\x0c'

/-- `s.replace(/\s+$/, "")`: strip trailing whitespace. -/
def rtrim (s : String) : String :=
  String.mk ((s.toList.reverse.dropWhile jsIsWs).reverse)

/-- Strip leading whitespace (`s.trimStart()`). -/
def ltrim (s : String) : String :=
  String.mk (s.toList.dropWhile jsIsWs)

/-- JS `s.trim()`. -/
def jsTrim (s : String) : String := ltrim (rtrim s)

/-- Helper for `collapseWs`: the boolean records whether the previous
character was whitespace (so the single replacement space was already
emitted for the current run). -/
def collapseAux : Bool → List Char → List Char
  | _, [] => []
  | inWs, c :: rest =>
    if jsIsWs c then
      if inWs then collapseAux true rest
      else ' ' :: collapseAux true rest
    else c :: collapseAux false rest

/-- JS `s.replace(/\s+/g, " ")`: every maximal whitespace run becomes one
space. -/
def collapseWs (s : String) : String :=
  String.mk (collapseAux false s.toList)

/-- Number of leading whitespace characters of a string
(`s.length - s.trimStart().length`). -/
def leadingWsCount (s : String) : Nat :=
  (s.toList.takeWhile jsIsWs).length

/-- `s.toLowerCase()` character-wise, written over the character list. -/
def jsToLower (s : String) : String :=
  String.mk (s.toList.map Char.toLower)

/-! ## Data model: `DocumentBlock` and friends (parseHtmlToBlocks.ts) -/

/-- `rgbColor` payload; the source stores `parseInt(h, 16) / 255` per
channel.  The embedding records the parsed byte `parseInt(h, 16)`
(0–255), an injective encoding of that 0–1 value (the `/ 255` rescaling
is a constant bijection on the bytes). -/
structure RgbColor where
  red : Nat
  green : Nat
  blue : Nat
deriving DecidableEq, Repr

/-- `link: \x7b url: string \x7d`. -/
structure LinkUrl where
  url : String
deriving DecidableEq, Repr

/-- The inline `textStyle` object: each field is present (`some`) only when
the corresponding markup was seen. -/
structure TextStyle where
  bold : Option Bool
  italic : Option Bool
  underline : Option Bool
  foregroundColor : Option RgbColor
  link : Option LinkUrl
deriving DecidableEq, Repr

/-- The empty style object `\x7b\x7d`. -/
def emptyStyle : TextStyle := ⟨none, none, none, none, none⟩

/-- `\x7b start, end, textStyle \x7d`, offsets local to the block text. -/
structure InlineStyle where
  start : Nat
  «end» : Nat
  textStyle : TextStyle
deriving DecidableEq, Repr

/-- `paragraphStyle: \x7b namedStyleType: string \x7d`. -/
structure ParagraphStyle where
  namedStyleType : String
deriving DecidableEq, Repr

/-- `listInfo` of a list-item block. -/
structure ListInfo where
  ordered : Bool
  nestingLevel : Nat
  position : Nat
deriving DecidableEq, Repr

/-- `tableInfo` of a table-cell block. Spans that are absent or
non-numeric in the markup default to 1 (spec §3); the nominal row/column
counters are assigned in document order. -/
structure TableInfo where
  rowIndex : Nat
  columnIndex : Nat
  rowSpan : Nat
  columnSpan : Nat
deriving DecidableEq, Repr

/-- A flat text block with structural metadata, as produced by
`parseHtmlToBlocks` and consumed by `blocksToRequests`.  `inlineStyles`
is `none` when the field was deleted (empty list case in the source). -/
structure DocumentBlock where
  text : String
  paragraphStyle : ParagraphStyle
  inlineStyles : Option (List InlineStyle)
  isListItem : Bool
  listInfo : Option ListInfo
  tableInfo : Option TableInfo
deriving DecidableEq, Repr

/-! ## Request generator (blocksToRequests.ts) -/

/-- The two shapes of `updateParagraphStyle.paragraphStyle` payloads the
generator emits: a named style, or the list-item indentation pair
(magnitudes in PT). -/
inductive ParagraphStyleUpdate where
  | named (namedStyleType : String)
  | indent (indentFirstLine : Nat) (indentStart : Nat)
deriving DecidableEq, Repr

/-- The Google-Docs batchUpdate request variants emitted by the
generator, in the shape `blocksToRequests` pushes them. -/
inductive Request where
  | insertText (text : String) (index : Nat)
  | updateParagraphStyle (startIndex endIndex : Nat)
      (style : ParagraphStyleUpdate) (fields : String)
  | updateTextStyle (startIndex endIndex : Nat)
      (textStyle : TextStyle) (fields : String)
  | createParagraphBullets (startIndex endIndex : Nat) (bulletPreset : String)
  | insertTable (index rows columns : Nat)
deriving DecidableEq, Repr

/-- Bullet preset chosen for a list group. -/
def bulletPresetFor (ordered : Bool) : String :=
  if ordered then "NUMBERED_DECIMAL_ALPHA_ROMAN" else "BULLET_DISC_CIRCLE_SQUARE"

/-- JS `columnSpan || 1` (0 is falsy). -/
def spanOrOne (n : Nat) : Nat := if n = 0 then 1 else n

/-- The one global pre-pass of `blocksToRequests`: `maxColumn` over every
block of the whole sequence that carries `tableInfo`. -/
def computeMaxColumn (blocks : List DocumentBlock) : Nat :=
  blocks.foldl
    (fun m b =>
      match b.tableInfo with
      | some ti => Nat.max m (ti.columnIndex + spanOrOne ti.columnSpan)
      | none => m)
    0

/-- The `currentListGroup` accumulator. -/
structure ListGroup where
  startIndex : Nat
  endIndex : Nat
  ordered : Bool
  hasItems : Bool
deriving DecidableEq, Repr

/-- Generator state threaded through the `blocks.forEach` loop. -/
structure GenState where
  currentIndex : Nat
  tableStartIndex : Option Nat
  tableInitialized : Bool
  listGroup : ListGroup
deriving DecidableEq, Repr

/-- Lines 62–75 of the generator: rebuild the text style by copying each
defined property (`bold`, `italic`, `underline`, `link`,
`foregroundColor`) into a fresh object. -/
def transformTextStyle (st : TextStyle) : TextStyle :=
  { bold := st.bold, italic := st.italic, underline := st.underline
    foregroundColor := st.foregroundColor, link := st.link }

/-- The `updateTextStyle` requests for one block: start is
`blockStart + style.start` unconditionally, end is clamped with
`Math.min(style.end, textLength)`. -/
def styleRequests (blockStart textLength : Nat) :
    Option (List InlineStyle) → List Request
  | none => []
  | some l =>
    l.map fun st =>
      Request.updateTextStyle (blockStart + st.start)
        (blockStart + Nat.min st.«end» textLength)
        (transformTextStyle st.textStyle) "*"

/-- List-item handling of one block (lines 90–148): maintain the list
group, emit the bullet request for the previous group when the
ordered/unordered flag flips or a non-list block is hit, and emit the
per-item indentation request. -/
def listStep (blockStart textLength : Nat) (b : DocumentBlock)
    (g : ListGroup) : List Request × ListGroup :=
  match b.listInfo, b.isListItem with
  | some li, true =>
    let (pre, g1) :=
      if !g.hasItems then
        ([], { g with startIndex := blockStart, ordered := li.ordered, hasItems := true })
      else if li.ordered ≠ g.ordered then
        ([Request.createParagraphBullets g.startIndex g.endIndex (bulletPresetFor g.ordered)],
         { g with startIndex := blockStart, ordered := li.ordered })
      else ([], g)
    let g2 := { g1 with endIndex := blockStart + textLength }
    (pre ++ [Request.updateParagraphStyle blockStart (blockStart + textLength)
        (ParagraphStyleUpdate.indent (li.nestingLevel * 18) (li.nestingLevel * 18 + 36))
        "indentFirstLine,indentStart"],
     g2)
  | _, _ =>
    if g.hasItems then
      ([Request.createParagraphBullets g.startIndex g.endIndex (bulletPresetFor g.ordered)],
       { g with hasItems := false })
    else ([], g)

/-- Table handling of one block (lines 150–167): emit `insertTable` with
`rows: 1` and the globally precomputed `maxColumn` on the first cell of a
region; reset the region trackers on a non-cell block. -/
def tableStep (mc : Nat) (tsi : Option Nat) (tinit : Bool) (isCell : Bool) :
    List Request × Option Nat × Bool :=
  if isCell then
    if !tinit then ([Request.insertTable (tsi.getD 0) 1 mc], tsi, true)
    else ([], tsi, tinit)
  else ([], none, false)

/-- Line 34 of the generator: on the first table cell of a region, mark
the table start location (the block's own start). -/
def tsiOf (b : DocumentBlock) (s : GenState) : Option Nat :=
  match s.tableStartIndex, b.tableInfo with
  | none, some _ => some s.currentIndex
  | t, _ => t

/-- One iteration of the `blocks.forEach` loop: requests emitted for the
block, and the updated generator state. -/
def step (mc : Nat) (b : DocumentBlock) (s : GenState) :
    List Request × GenState :=
  let blockStart := s.currentIndex
  let textLength := b.text.length
  let fullLength := textLength + 1
  let tsi := tsiOf b s
  let base :=
    [Request.insertText (b.text ++ "\n") blockStart,
     Request.updateParagraphStyle blockStart (blockStart + fullLength)
       (ParagraphStyleUpdate.named b.paragraphStyle.namedStyleType) "*"]
  let uts := styleRequests blockStart textLength b.inlineStyles
  let lres := listStep blockStart textLength b s.listGroup
  let tres := tableStep mc tsi s.tableInitialized b.tableInfo.isSome
  (base ++ uts ++ lres.1 ++ tres.1,
   { currentIndex := blockStart + fullLength
     tableStartIndex := tres.2.1
     tableInitialized := tres.2.2
     listGroup := lres.2 })

/-- The trailing flush of an open list group (lines 172–184). -/
def finalFlush (g : ListGroup) : List Request :=
  if g.hasItems then
    [Request.createParagraphBullets g.startIndex g.endIndex (bulletPresetFor g.ordered)]
  else []

/-- The loop of `blocksToRequests` with the final list-group flush. -/
def generate (mc : Nat) : List DocumentBlock → GenState → List Request
  | [], s => finalFlush s.listGroup
  | b :: rest, s => (step mc b s).1 ++ generate mc rest (step mc b s).2

/-- Initial generator state: cursor 1, no table region, empty list group. -/
def initGenState : GenState := ⟨1, none, false, ⟨0, 0, false, false⟩⟩

/-- `blocksToRequests(blocks)`. -/
def blocksToRequests (blocks : List DocumentBlock) : List Request :=
  generate (computeMaxColumn blocks) blocks initGenState

/-! ## The DOM tree handed over by the external markup parser

The core never parses raw markup (spec §6): its input is a tree of
element/text nodes.  `HNodes` is the (mutually inductive) list of child
nodes, so that every traversal below is structurally recursive. -/

mutual
inductive HNode where
  | text (data : String)
  | elem (el : HElem)
inductive HElem where
  | mk (tag : String) (attrs : List (String × String)) (children : HNodes)
inductive HNodes where
  | nil
  | cons (head : HNode) (tail : HNodes)
end

/-- Element tag name (as the parser delivered it; dispatch lowercases). -/
def HElem.tag : HElem → String
  | .mk t _ _ => t

/-- Element attribute list. -/
def HElem.attrs : HElem → List (String × String)
  | .mk _ a _ => a

/-- Element children. -/
def HElem.children : HElem → HNodes
  | .mk _ _ c => c

/-- Convenience conversion for writing concrete documents. -/
def HNodes.ofList : List HNode → HNodes
  | [] => .nil
  | n :: rest => .cons n (HNodes.ofList rest)

/-- `$node.attr(name)`. -/
def attrOf (attrs : List (String × String)) (name : String) : Option String :=
  (attrs.find? fun p => p.1 = name).map (·.2)

mutual
/-- Descendant elements with the given (lowercased) tag, in document
order, as cheerio `find(tag)` returns them — nested matches included. -/
def findInNodes (target : String) : HNodes → List HElem
  | .nil => []
  | .cons n rest => findInNode target n ++ findInNodes target rest
def findInNode (target : String) : HNode → List HElem
  | .text _ => []
  | .elem e => (if jsToLower e.tag = target then [e] else []) ++ findInElem target e
def findInElem (target : String) : HElem → List HElem
  | .mk _ _ c => findInNodes target c
end

/-- cheerio `$el.find(target)`: matching descendants of the element. -/
def findDesc (target : String) (e : HElem) : List HElem :=
  findInNodes target e.children

mutual
/-- cheerio `.text()`: the concatenated data of every descendant text
node (`<br>` contributes nothing). -/
def textContentNodes : HNodes → String
  | .nil => ""
  | .cons n rest => textContentNode n ++ textContentNodes rest
def textContentNode : HNode → String
  | .text d => d
  | .elem e => textContentElem e
def textContentElem : HElem → String
  | .mk _ _ c => textContentNodes c
end

/-! ## Block extractor (parseHtmlToBlocks, part_000) -/

/-- `getStyleType`: heading tags map to heading styles, everything else
to `NORMAL_TEXT`. -/
def getStyleType (tag : String) : String :=
  match jsToLower tag with
  | "h1" => "HEADING_1"
  | "h2" => "HEADING_2"
  | "h3" => "HEADING_3"
  | "h4" => "HEADING_4"
  | "h5" => "HEADING_5"
  | "h6" => "HEADING_6"
  | _ => "NORMAL_TEXT"

/-- Value of one hex digit, case-insensitive (the regex carries `/i`). -/
def hexVal (c : Char) : Option Nat :=
  if '0' ≤ c ∧ c ≤ '9' then some (c.toNat - '0'.toNat)
  else if 'a' ≤ c ∧ c ≤ 'f' then some (c.toNat - 'a'.toNat + 10)
  else if 'A' ≤ c ∧ c ≤ 'F' then some (c.toNat - 'A'.toNat + 10)
  else none

/-- Try to match `color:\s*#rrggbb` (case-insensitive) at the head of the
character list; each channel is `parseInt(h, 16) / 255`, kept exact. -/
def matchColorAt (cs : List Char) : Option RgbColor :=
  if (cs.take 6).map Char.toLower = "color:".toList then
    match (cs.drop 6).dropWhile jsIsWs with
    | '#' :: r1 :: r2 :: g1 :: g2 :: b1 :: b2 :: _ =>
      match hexVal r1, hexVal r2, hexVal g1, hexVal g2, hexVal b1, hexVal b2 with
      | some a, some b, some c, some d, some e, some f =>
        some ⟨16 * a + b, 16 * c + d, 16 * e + f⟩
      | _, _, _, _, _, _ => none
    | _ => none
  else none

/-- The regex search `styleAttr.match(/color:\s*#....../i)`: try every
position left to right. -/
def findColorHex : List Char → Option RgbColor
  | [] => none
  | c :: rest =>
    match matchColorAt (c :: rest) with
    | some v => some v
    | none => findColorHex rest

/-- `getInlineStyle`: bold/italic/underline from the tag, `link` from a
truthy `href`, `foregroundColor` from a `span` whose `style` attribute
matches the color regex; `null` when nothing applied. -/
def getInlineStyle (tag : String) (attrs : List (String × String)) :
    Option TextStyle :=
  let t := jsToLower tag
  let st : TextStyle :=
    { bold := if t = "strong" ∨ t = "b" then some true else none
      italic := if t = "em" ∨ t = "i" then some true else none
      underline := if t = "u" then some true else none
      foregroundColor :=
        if t = "span" then
          match attrOf attrs "style" with
          | some sa => if sa = "" then none else findColorHex sa.toList
          | none => none
        else none
      link :=
        if t = "a" then
          match attrOf attrs "href" with
          | some h => if h = "" then none else some ⟨h⟩
          | none => none
        else none }
  if st = emptyStyle then none else some st

mutual
/-- The fused two passes of `processTextContent` for one element:
returns the element subtree's raw text contribution (`collectText`) and
the inline styles `processStyles` pushes for this subtree, in push order.
`curLen` is the length of the collected text before this element's own
contents begin (`textPositions` key `start`). -/
def collectElem (e : HElem) (curLen : Nat) : String × List InlineStyle :=
  match e with
  | .mk tag attrs cs =>
    let (t, childStyles) := collectNodes cs curLen
    let trimmed := rtrim t
    let own :=
      match getInlineStyle tag attrs with
      | none => []
      | some sty =>
        let rightTrimmed := rtrim trimmed
        let lt := leadingWsCount rightTrimmed
        let content := ltrim rightTrimmed
        if content = "" then []
        else [InlineStyle.mk (curLen + lt) (curLen + lt + content.length) sty]
    (t, childStyles ++ own)
/-- The `contents().each` loop of `collectText`/`processStyles`. -/
def collectNodes (ns : HNodes) (curLen : Nat) : String × List InlineStyle :=
  match ns with
  | .nil => ("", [])
  | .cons n rest =>
    let (t1, s1) := collectContent n curLen
    let (t2, s2) := collectNodes rest (curLen + t1.length)
    (t1 ++ t2, s1 ++ s2)
/-- One entry of the contents loop: raw text data, a `<br>` as `"\n"`,
any other element recursively. -/
def collectContent (n : HNode) (curLen : Nat) : String × List InlineStyle :=
  match n with
  | .text d => (d, [])
  | .elem e => if jsToLower e.tag = "br" then ("\n", []) else collectElem e curLen
end

/-- Stable insertion into a list sorted by `start` (before the first
entry with a key not smaller). -/
def insertByStart (a : InlineStyle) : List InlineStyle → List InlineStyle
  | [] => [a]
  | b :: t => if b.start < a.start then b :: insertByStart a t else a :: b :: t

/-- The stable `sort((a, b) => a.start - b.start)` of the source: a
stable sort's result is unique, so insertion sort matches it. -/
def sortInline : List InlineStyle → List InlineStyle
  | [] => []
  | a :: t => insertByStart a (sortInline t)

/-- `createBlock`: collect text and inline styles, apply the optional
normalized-text override (list items), delete `inlineStyles` when empty.
`tableInfo` is attached afterwards by the table branch. -/
def createBlock (tag : String) (attrs : List (String × String)) (cs : HNodes)
    (isList : Bool) (listInfo : Option ListInfo) (textOverride : Option String) :
    DocumentBlock :=
  let (txt, styles) := collectElem (.mk tag attrs cs) 0
  let sorted := sortInline styles
  { text := textOverride.getD txt
    paragraphStyle := ⟨getStyleType tag⟩
    inlineStyles := if sorted.isEmpty then none else some sorted
    isListItem := isList
    listInfo := if isList then listInfo else none
    tableInfo := none }

/-- `parseInt(attr || "1", 10)` for span attributes: leading whitespace
then decimal digits; the spec documents "default 1 when absent or
non-numeric", and the embedding (spans as `Nat`) maps the non-numeric
`NaN` case to that default. -/
def parseSpanAttr (a : Option String) : Nat :=
  match a with
  | none => 1
  | some v =>
    let cs := (v.toList.dropWhile jsIsWs).dropWhile (fun c => c = '+')
    let digits := cs.takeWhile Char.isDigit
    if digits.isEmpty then 1
    else digits.foldl (fun acc c => acc * 10 + (c.toNat - '0'.toNat)) 0

/-- The `table` branch: walk `find('tr')` then `find('td')` in document
order, one block per cell, with nominal row/column counters and the
parsed spans. -/
def tableBlocks (e : HElem) : List DocumentBlock :=
  (findDesc "tr" e).enum.flatMap fun rc =>
    (findDesc "td" rc.2).enum.map fun cc =>
      match cc.2 with
      | .mk t a c =>
        { createBlock t a c false none none with
            tableInfo := some
              ⟨rc.1, cc.1, parseSpanAttr (attrOf a "rowspan"),
               parseSpanAttr (attrOf a "colspan")⟩ }

/-- The list-context stack entry (`ListContext`); the write-only
`parentListContext` back-reference of the source is never read and is
omitted. -/
structure ListCtx where
  ordered : Bool
  nestingLevel : Nat
  position : Nat
deriving DecidableEq, Repr

/-- Extractor state: emitted blocks, the list-context stack, and the
per-`(type, level)` position tracker map. -/
structure PState where
  blocks : List DocumentBlock
  listStack : List ListCtx
  positionTracker : List (String × Nat)
deriving DecidableEq, Repr

/-- `getPositionKey`. -/
def getPositionKey (ordered : Bool) (nestingLevel : Nat) : String :=
  (if ordered then "ol" else "ul") ++ "-" ++ toString nestingLevel

/-- `Map.set` on the tracker: replace the key's entry or append one. -/
def trackerSet (m : List (String × Nat)) (k : String) (v : Nat) :
    List (String × Nat) :=
  if m.any (fun p => p.1 = k) then m.map fun p => if p.1 = k then (k, v) else p
  else m ++ [(k, v)]

/-- `positionTracker.get(key) || 0`. -/
def trackerGet (m : List (String × Nat)) (k : String) : Nat :=
  (m.lookup k).getD 0

/-- `<br>` in a non-block context: append `"\n"` to the last emitted
block, if any. -/
def appendNlToLast : List DocumentBlock → List DocumentBlock
  | [] => []
  | [b] => [{ b with text := b.text ++ "\n" }]
  | b :: rest => b :: appendNlToLast rest

/-- Direct element children that are `ul`/`ol` are removed from a list
item's clone before its text is collected. -/
def removeListChildren : HNodes → HNodes
  | .nil => .nil
  | .cons n rest =>
    match n with
    | .elem e =>
      if jsToLower e.tag = "ul" ∨ jsToLower e.tag = "ol" then removeListChildren rest
      else .cons n (removeListChildren rest)
    | .text _ => .cons n (removeListChildren rest)

mutual
/-- `processNode` on a single node.  The bare-text branch at the top of
the source function pushes any non-empty trimmed text node as a normal
block. -/
def processNode (n : HNode) (lvl : Nat) (s : PState) : PState :=
  match n with
  | .text d =>
    let t := jsTrim d
    if t = "" then s
    else { s with blocks := s.blocks ++ [⟨t, ⟨"NORMAL_TEXT"⟩, none, false, none, none⟩] }
  | .elem e => processElem e lvl s

/-- The tag dispatch of `processNode`. -/
def processElem (e : HElem) (lvl : Nat) (s : PState) : PState :=
  match e with
  | .mk tag attrs cs =>
    match jsToLower tag with
    | "table" => { s with blocks := s.blocks ++ tableBlocks (.mk tag attrs cs) }
    | "p" => { s with blocks := s.blocks ++ [createBlock tag attrs cs false none none] }
    | "h1" => { s with blocks := s.blocks ++ [createBlock tag attrs cs false none none] }
    | "h2" => { s with blocks := s.blocks ++ [createBlock tag attrs cs false none none] }
    | "h3" => { s with blocks := s.blocks ++ [createBlock tag attrs cs false none none] }
    | "h4" => { s with blocks := s.blocks ++ [createBlock tag attrs cs false none none] }
    | "h5" => { s with blocks := s.blocks ++ [createBlock tag attrs cs false none none] }
    | "h6" => { s with blocks := s.blocks ++ [createBlock tag attrs cs false none none] }
    | "div" => { s with blocks := s.blocks ++ [createBlock tag attrs cs false none none] }
    | "ul" | "ol" =>
      let isOrdered := jsToLower tag = "ol"
      let ctx : ListCtx := ⟨isOrdered, lvl, 0⟩
      let s1 : PState :=
        { s with
            positionTracker := trackerSet s.positionTracker (getPositionKey isOrdered lvl) 0
            listStack := s.listStack ++ [ctx] }
      let s2 := procChildrenElems cs lvl s1
      { s2 with listStack := s2.listStack.dropLast }
    | "li" =>
      match s.listStack.getLast? with
      | none => s
      | some cur =>
        let key := getPositionKey cur.ordered cur.nestingLevel
        let position := trackerGet s.positionTracker key + 1
        let s1 := { s with positionTracker := trackerSet s.positionTracker key position }
        let kept := removeListChildren cs
        let normalizedText := jsTrim (collapseWs (textContentNodes kept))
        let block := createBlock tag attrs kept true
          (some ⟨cur.ordered, cur.nestingLevel, position⟩) (some normalizedText)
        let s2 := { s1 with blocks := s1.blocks ++ [block] }
        procNestedLists cs cur.nestingLevel s2
    | "br" => { s with blocks := appendNlToLast s.blocks }
    | _ => procContents cs lvl s

/-- `$element.children().each`: element children only, same level. -/
def procChildrenElems (ns : HNodes) (lvl : Nat) (s : PState) : PState :=
  match ns with
  | .nil => s
  | .cons n rest =>
    let s1 :=
      match n with
      | .text _ => s
      | .elem e => processElem e lvl s
    procChildrenElems rest lvl s1

/-- The nested-list loop at the end of the `li` branch:
`children('ul, ol')` each get a fresh context one level deeper, a reset
position counter, and are processed recursively. -/
def procNestedLists (ns : HNodes) (parentLevel : Nat) (s : PState) : PState :=
  match ns with
  | .nil => s
  | .cons n rest =>
    let s1 :=
      match n with
      | .text _ => s
      | .elem e =>
        if jsToLower e.tag = "ul" ∨ jsToLower e.tag = "ol" then
          let isOrdered := jsToLower e.tag = "ol"
          let ctx : ListCtx := ⟨isOrdered, parentLevel + 1, 0⟩
          let t1 : PState :=
            { s with
                positionTracker :=
                  trackerSet s.positionTracker (getPositionKey isOrdered (parentLevel + 1)) 0
                listStack := s.listStack ++ [ctx] }
          let t2 := processElem e (parentLevel + 1) t1
          { t2 with listStack := t2.listStack.dropLast }
        else s
    procNestedLists rest parentLevel s1

/-- The default branch: recurse into element contents; a text child is
pushed (trimmed) only while no block has been emitted yet. -/
def procContents (ns : HNodes) (lvl : Nat) (s : PState) : PState :=
  match ns with
  | .nil => s
  | .cons n rest =>
    let s1 :=
      match n with
      | .elem e => processElem e lvl s
      | .text d =>
        let t := jsTrim d
        if t ≠ "" ∧ s.blocks = [] then
          { s with blocks := s.blocks ++ [⟨t, ⟨"NORMAL_TEXT"⟩, none, false, none, none⟩] }
        else s
    procContents rest lvl s1
end

/-- `parseHtmlToBlocks`: the external parser wraps the document in a
`body` element (for the empty input string, a `body` with no children);
processing starts there with an empty state. -/
def parseHtmlToBlocks (roots : HNodes) : List DocumentBlock :=
  (processNode (.elem (.mk "body" [] roots)) 0 ⟨[], [], []⟩).blocks

/-! ## Streaming aggregator (TextAggregator, part_002)

Style dictionaries (`Record<string, unknown>`) are association lists
with `String` keys; the values are opaque payloads, here `String`.
Lookup goes through `List.lookup`, and JS object spread is `jsSpread`. -/

/-- A style dictionary. -/
abbrev StyleDict := List (String × String)

/-- JS `\x7b ...a, ...b \x7d`: keys of `a` in order with `b`'s value
winning on a conflict, then the keys of `b` not in `a`. -/
def jsSpread (a b : StyleDict) : StyleDict :=
  (a.map fun kv =>
    match b.lookup kv.1 with
    | some v => (kv.1, v)
    | none => kv) ++
  b.filter fun kv => (a.lookup kv.1).isNone

/-- An entry of `formattingRanges`. -/
structure FormattingRange where
  startIndex : Nat
  endIndex : Nat
  style : StyleDict
deriving DecidableEq, Repr

/-- The `TextAggregator` state (fields in declaration order of the
class; `options.preserveWhitespace` flattened to a `Bool`). -/
structure TextAggregator where
  buffer : String
  startIndex : Nat
  formattingRanges : List FormattingRange
  preserveWhitespace : Bool
  lastCharWasNewline : Bool
  isBlockStart : Bool
  needsBlockBoundary : Bool
  pendingSpace : Bool
deriving DecidableEq, Repr

/-- Matches of `/(?<=[^\s])\s(?=[^\s])/g` in a character list: positions
holding a whitespace character with a non-whitespace character on both
sides. -/
def countMidSpaces : List Char → Nat
  | a :: b :: c :: rest =>
    (if ¬ jsIsWs a ∧ jsIsWs b ∧ ¬ jsIsWs c then 1 else 0) + countMidSpaces (b :: c :: rest)
  | _ => 0

/-- JS `s.substring(from, to)` (clamping, and swapping when
`from > to`). -/
def jsSubstring (s : String) (from0 to0 : Nat) : List Char :=
  (s.toList.drop (Nat.min from0 to0)).take (Nat.max from0 to0 - Nat.min from0 to0)

/-- The separator-corrected absolute range of a registration:
`actualStartOffset` and `actualEndOffset` of `addFormattingRange`. -/
def actualRange (ag : TextAggregator) (startOffset endOffset : Nat) : Nat × Nat :=
  let addedSpaces := countMidSpaces (jsSubstring ag.buffer 0 startOffset)
  let rangeSpaces := countMidSpaces (jsSubstring ag.buffer startOffset endOffset)
  let actualStart := startOffset + addedSpaces
  (actualStart, actualStart + (endOffset - startOffset) + rangeSpaces)

/-- The overlap test of `addFormattingRange`
(`range.startIndex <= actualEnd && range.endIndex >= actualStart`). -/
def overlapsRange (actualStart actualEnd : Nat) (r : FormattingRange) : Bool :=
  r.startIndex ≤ actualEnd && actualStart ≤ r.endIndex

/-- `TextAggregator.addFormattingRange`: translate the caller-local
offsets, find overlapping registered ranges, and either append a fresh
entry or replace every overlapping entry by one merged entry whose style
is `overlapping.reduce((acc, range) => \x7b...acc, ...range.style\x7d, style)`. -/
def addFormattingRange (ag : TextAggregator) (startOffset endOffset : Nat)
    (style : StyleDict) : TextAggregator :=
  let ar := actualRange ag startOffset endOffset
  let overlapping := ag.formattingRanges.filter (overlapsRange ar.1 ar.2)
  if overlapping.isEmpty then
    { ag with formattingRanges :=
        ag.formattingRanges ++ [⟨ar.1, ar.2, style⟩] }
  else
    let merged := overlapping.foldl (fun acc r => jsSpread acc r.style) style
    { ag with formattingRanges :=
        (ag.formattingRanges.filter fun r => !(overlapsRange ar.1 ar.2 r)) ++
        [⟨ar.1, ar.2, merged⟩] }

/-! ## Top-level entry point (GoogleDocConverter.convertHtml, part_003)

The current (0.3.x, blocks-pipeline) converter class: a non-string
input throws `ValidationError("HTML input must be a string")`, an input
whose trim is empty throws `ValidationError("HTML input cannot be
empty")`, anything else runs `parseHtmlToBlocks` then
`blocksToRequests` (both total, so the surrounding try/catch never
fires).  The external markup parse (cheerio.load) is a parameter; a
thrown error is `Except.error` with the error's message. -/

/-- A JavaScript argument for a `string`-typed parameter: an actual
string, or any value of another runtime type
(`typeof html !== "string"`). -/
inductive JsInput where
  | ofString (s : String)
  | notAString
deriving DecidableEq, Repr

/-- `GoogleDocConverter.convertHtml` of the blocks pipeline. -/
def convertHtml (parse : String → HNodes) (input : JsInput) :
    Except String (List Request) :=
  match input with
  | .notAString => .error "HTML input must be a string"
  | .ofString s =>
    if jsTrim s = "" then .error "HTML input cannot be empty"
    else .ok (blocksToRequests (parseHtmlToBlocks (parse s)))

/-! ## Observation functions used by the theorem statements -/

/-- The `(text, at)` pairs of the `InsertText` requests of a request
list, in emission order. -/
def insertTextsOf : List Request → List (String × Nat) :=
  List.filterMap fun r =>
    match r with
    | .insertText t i => some (t, i)
    | _ => none

/-- The `(startIndex, endIndex, textStyle, fields)` tuples of the
`updateTextStyle` requests of a request list, in emission order. -/
def utsOf : List Request → List (Nat × Nat × TextStyle × String) :=
  List.filterMap fun r =>
    match r with
    | .updateTextStyle a b st f => some (a, b, st, f)
    | _ => none

/-- The `(index, rows, columns)` triples of the `insertTable` requests
of a request list, in emission order. -/
def insertTablesOf : List Request → List (Nat × Nat × Nat) :=
  List.filterMap fun r =>
    match r with
    | .insertTable i rw c => some (i, rw, c)
    | _ => none

/-- The `updateTextStyle` tuples one block contributes, at cursor
`cur`. -/
def blockUts (cur : Nat) (b : DocumentBlock) : List (Nat × Nat × TextStyle × String) :=
  match b.inlineStyles with
  | none => []
  | some l =>
    l.map fun st =>
      (cur + st.start, cur + Nat.min st.«end» b.text.length,
       transformTextStyle st.textStyle, "*")

/-- The `InsertText` `(text, at)` pairs the generator is specified to
emit from a block list starting at cursor `cur`. -/
def specInserts : Nat → List DocumentBlock → List (String × Nat)
  | _, [] => []
  | cur, b :: rest => (b.text ++ "\n", cur) :: specInserts (cur + b.text.length + 1) rest

/-- The `updateTextStyle` tuples the generator is specified to emit
from a block list starting at cursor `cur`. -/
def specUts : Nat → List DocumentBlock → List (Nat × Nat × TextStyle × String)
  | _, [] => []
  | cur, b :: rest => blockUts cur b ++ specUts (cur + b.text.length + 1) rest

/-- Concatenation of a list of strings. -/
def concatStrings : List String → String
  | [] => ""
  | s :: rest => s ++ concatStrings rest

/-- The full linear document text of a block sequence: every block's
text followed by the separator. -/
def fullText (bs : List DocumentBlock) : String :=
  concatStrings (bs.map fun b => b.text ++ "\n")

/-- Total stream length contributed by a block list (text + separator
per block). -/
def sumLens (bs : List DocumentBlock) : Nat :=
  (bs.map fun b => b.text.length + 1).sum

/-- `blockStart` of the `i`-th block: the cursor starts at 1 and
advances by `len(text) + 1` per block. -/
def startAt (bs : List DocumentBlock) (i : Nat) : Nat :=
  1 + sumLens (bs.take i)

/-- The inline style intervals of a block (`[]` when the field is
absent). -/
def stylesOf (b : DocumentBlock) : List InlineStyle :=
  b.inlineStyles.getD []

/-- The requests emitted by the per-block loop (without the final
list-group flush). -/
def emitted (mc : Nat) : List DocumentBlock → GenState → List Request
  | [], _ => []
  | b :: rest, s => (step mc b s).1 ++ emitted mc rest (step mc b s).2

/-- Generator state after the per-block loop has consumed a block
list. -/
def stateAfter (mc : Nat) : List DocumentBlock → GenState → GenState
  | [], s => s
  | b :: rest, s => stateAfter mc rest (step mc b s).2

/-- `r₁` occurs strictly before `r₂` in the list (decidably, via `Fin`
indices). -/
def appearsBefore (r₁ r₂ : Request) (l : List Request) : Prop :=
  ∃ i j : Fin l.length, (i : Nat) < j ∧ l.get i = r₁ ∧ l.get j = r₂

instance (r₁ r₂ : Request) (l : List Request) : Decidable (appearsBefore r₁ r₂ l) := by
  unfold appearsBefore; infer_instance

/-- Number of contiguous table regions (maximal runs of consecutive
cell blocks); the flag says whether the previous block was a cell. -/
def countRegionsFrom : Bool → List DocumentBlock → Nat
  | _, [] => 0
  | prev, b :: rest =>
    (if b.tableInfo.isSome ∧ ¬ prev then 1 else 0) +
      countRegionsFrom b.tableInfo.isSome rest

/-- The number of distinct `rowIndex` values among the cell blocks. -/
def distinctRowCount (bs : List DocumentBlock) : Nat :=
  ((bs.filterMap fun b => b.tableInfo).map (fun ti => ti.rowIndex)).dedup.length

/-- A string's last character is the block separator `"\n"`. -/
def endsWithNl (s : String) : Bool :=
  match s.toList.getLast? with
  | some c => c = '\n'
  | none => false

mutual
/-- A document fragment with no line-break element and no literal
newline character inside text-node data. -/
def cleanNode : HNode → Bool
  | .text d => d.toList.all fun c => c ≠ '\n'
  | .elem e => cleanElem e
def cleanElem : HElem → Bool
  | .mk tag _ cs => (jsToLower tag ≠ "br") && cleanNodes cs
def cleanNodes : HNodes → Bool
  | .nil => true
  | .cons n rest => cleanNode n && cleanNodes rest
end

/-- No newline character occurs in the string. -/
def noNl (s : String) : Bool :=
  s.toList.all fun c => c ≠ '\n'

/-- The last registered range whose style dictionary defines the key
(the one whose value the fold of `addFormattingRange` keeps). -/
def lastStyleWith (rs : List FormattingRange) (k : String) : Option FormattingRange :=
  rs.reverse.find? fun r => (r.style.lookup k).isSome

/-- The overlapping registered ranges a registration hits. -/
def overlappingOf (ag : TextAggregator) (so eo : Nat) : List FormattingRange :=
  ag.formattingRanges.filter
    (overlapsRange (actualRange ag so eo).1 (actualRange ag so eo).2)

/-- The merged style dictionary `addFormattingRange` computes:
`overlapping.reduce((acc, range) => \x7b...acc, ...range.style\x7d, style)`. -/
def mergedStyleOf (ag : TextAggregator) (so eo : Nat) (style : StyleDict) : StyleDict :=
  (overlappingOf ag so eo).foldl (fun acc r => jsSpread acc r.style) style

/-! ## Concrete inputs used by counterexamples and witnesses -/

/-- A single table-cell block. -/
def cellBlockA : DocumentBlock :=
  ⟨"A", ⟨"NORMAL_TEXT"⟩, none, false, none, some ⟨0, 0, 1, 1⟩⟩

/-- Two cell blocks of one contiguous table region with distinct
`rowIndex` values 0 and 1. -/
def twoRowCells : List DocumentBlock :=
  [⟨"A", ⟨"NORMAL_TEXT"⟩, none, false, none, some ⟨0, 0, 1, 1⟩⟩,
   ⟨"B", ⟨"NORMAL_TEXT"⟩, none, false, none, some ⟨1, 0, 1, 1⟩⟩]

/-- Two one-cell table regions separated by a plain block; the first
region's cell spans 3 columns, the second region's only cell spans 1. -/
def twoRegions : List DocumentBlock :=
  [⟨"A", ⟨"NORMAL_TEXT"⟩, none, false, none, some ⟨0, 0, 1, 3⟩⟩,
   ⟨"x", ⟨"NORMAL_TEXT"⟩, none, false, none, none⟩,
   ⟨"B", ⟨"NORMAL_TEXT"⟩, none, false, none, some ⟨0, 0, 1, 1⟩⟩]

/-- A block whose single inline interval starts beyond the text length
(text `"a"`, interval `[5, 6)`). -/
def badStartBlock : DocumentBlock :=
  ⟨"a", ⟨"NORMAL_TEXT"⟩, some [⟨5, 6, emptyStyle⟩], false, none, none⟩

/-- The spec's scenario-2 block: `"Hello World"` with bold `[6, 11)`. -/
def helloWorldBlock : DocumentBlock :=
  ⟨"Hello World", ⟨"NORMAL_TEXT"⟩,
   some [⟨6, 11, ⟨some true, none, none, none, none⟩⟩], false, none, none⟩

/-- A paragraph followed by a root-level line break:
`<p>Hi</p><br>`. -/
def brDoc : HNodes :=
  HNodes.ofList
    [.elem (.mk "p" [] (HNodes.ofList [.text "Hi"])),
     .elem (.mk "br" [] HNodes.nil)]

/-- `<p>Hi</p>` alone. -/
def plainDoc : HNodes :=
  HNodes.ofList [.elem (.mk "p" [] (HNodes.ofList [.text "Hi"]))]

/-- Two sibling unordered lists separated by a paragraph:
`<ul><li>One</li><li>Two</li></ul><p>mid</p><ul><li>Uno</li></ul>`. -/
def siblingListsDoc : HNodes :=
  HNodes.ofList
    [.elem (.mk "ul" [] (HNodes.ofList
       [.elem (.mk "li" [] (HNodes.ofList [.text "One"])),
        .elem (.mk "li" [] (HNodes.ofList [.text "Two"]))])),
     .elem (.mk "p" [] (HNodes.ofList [.text "mid"])),
     .elem (.mk "ul" [] (HNodes.ofList
       [.elem (.mk "li" [] (HNodes.ofList [.text "Uno"]))]))]

/-- An aggregator state with a space-free ten-character buffer and one
registered range `[0, 5)` carrying `bold ↦ "A"`. -/
def agg0 : TextAggregator :=
  ⟨"abcdefghij", 0, [⟨0, 5, [("bold", "A")]⟩], false, false, true, false, false⟩

/-- The structural metadata of a block that no later traversal step can
change (a root-level line break may still append to the *text* of the
last block, but never alters these fields). -/
def blockMeta (b : DocumentBlock) : Option ListInfo × Bool :=
  (b.listInfo, b.isListItem)

/-- One extractor state extends another: blocks are only added at the
end, and the structural metadata of every block already present is
unchanged. -/
def MetaExt (s t : PState) : Prop :=
  s.blocks.length ≤ t.blocks.length
  ∧ ∀ i, i < s.blocks.length →
      (t.blocks.get? i).map blockMeta = (s.blocks.get? i).map blockMeta

/-! # Lemmas and claim theorems -/

/-! ## Generator: shapes of one step's output -/

theorem step_fst (mc : Nat) (b : DocumentBlock) (s : GenState) :
    (step mc b s).1 =
      [Request.insertText (b.text ++ "\n") s.currentIndex,
       Request.updateParagraphStyle s.currentIndex (s.currentIndex + (b.text.length + 1))
         (ParagraphStyleUpdate.named b.paragraphStyle.namedStyleType) "*"] ++
      styleRequests s.currentIndex b.text.length b.inlineStyles ++
      (listStep s.currentIndex b.text.length b s.listGroup).1 ++
      (tableStep mc (tsiOf b s) s.tableInitialized b.tableInfo.isSome).1 := rfl

theorem step_currentIndex (mc : Nat) (b : DocumentBlock) (s : GenState) :
    (step mc b s).2.currentIndex = s.currentIndex + (b.text.length + 1) := rfl

theorem step_listGroup (mc : Nat) (b : DocumentBlock) (s : GenState) :
    (step mc b s).2.listGroup = (listStep s.currentIndex b.text.length b s.listGroup).2 := rfl

theorem step_tableStartIndex (mc : Nat) (b : DocumentBlock) (s : GenState) :
    (step mc b s).2.tableStartIndex =
      (tableStep mc (tsiOf b s) s.tableInitialized b.tableInfo.isSome).2.1 := rfl

theorem step_tableInitialized (mc : Nat) (b : DocumentBlock) (s : GenState) :
    (step mc b s).2.tableInitialized =
      (tableStep mc (tsiOf b s) s.tableInitialized b.tableInfo.isSome).2.2 := rfl

/-! ## Generator: which request kinds each helper emits -/

theorem insertTextsOf_styleRequests (a t : Nat) (o : Option (List InlineStyle)) :
    insertTextsOf (styleRequests a t o) = [] := by
  cases o <;> simp [styleRequests, insertTextsOf, List.filterMap_map, Function.comp]

theorem insertTextsOf_listStep (a t : Nat) (b : DocumentBlock) (g : ListGroup) :
    insertTextsOf (listStep a t b g).1 = [] := by
  unfold listStep
  rcases b.listInfo with _ | li <;> cases b.isListItem <;>
    simp [insertTextsOf] <;> split_ifs <;> simp [insertTextsOf]

theorem insertTextsOf_tableStep (mc : Nat) (tsi : Option Nat) (ti isCell : Bool) :
    insertTextsOf (tableStep mc tsi ti isCell).1 = [] := by
  unfold tableStep; split_ifs <;> simp [insertTextsOf]

theorem insertTextsOf_finalFlush (g : ListGroup) :
    insertTextsOf (finalFlush g) = [] := by
  unfold finalFlush; split_ifs <;> simp [insertTextsOf]

theorem insertTextsOf_nil : insertTextsOf [] = [] := rfl

theorem insertTextsOf_append (l₁ l₂ : List Request) :
    insertTextsOf (l₁ ++ l₂) = insertTextsOf l₁ ++ insertTextsOf l₂ :=
  List.filterMap_append l₁ l₂ _

theorem insertTextsOf_cons_insertText (t : String) (i : Nat) (l : List Request) :
    insertTextsOf (Request.insertText t i :: l) = (t, i) :: insertTextsOf l := rfl

theorem insertTextsOf_cons_ups (a b : Nat) (st : ParagraphStyleUpdate) (f : String)
    (l : List Request) :
    insertTextsOf (Request.updateParagraphStyle a b st f :: l) = insertTextsOf l := rfl

theorem insertTextsOf_step (mc : Nat) (b : DocumentBlock) (s : GenState) :
    insertTextsOf (step mc b s).1 = [(b.text ++ "\n", s.currentIndex)] := by
  rw [step_fst]
  simp [insertTextsOf_append, insertTextsOf_styleRequests, insertTextsOf_listStep,
    insertTextsOf_tableStep, insertTextsOf_cons_insertText, insertTextsOf_cons_ups,
    insertTextsOf_nil]

theorem insertTextsOf_generate (mc : Nat) (bs : List DocumentBlock) :
    ∀ s : GenState, insertTextsOf (generate mc bs s) = specInserts s.currentIndex bs := by
  induction bs with
  | nil => intro s; simpa [generate, specInserts] using insertTextsOf_finalFlush s.listGroup
  | cons b rest ih =>
    intro s
    rw [show generate mc (b :: rest) s =
        (step mc b s).1 ++ generate mc rest (step mc b s).2 from rfl,
      insertTextsOf_append, insertTextsOf_step, ih, step_currentIndex]
    rfl

/-! ## C1 support: concatenation and the tiling of the stream -/

theorem concatStrings_length (l : List String) :
    (concatStrings l).length = (l.map String.length).sum := by
  induction l with
  | nil => rfl
  | cons s rest ih => simp [concatStrings, ih]

theorem specInserts_fsts (bs : List DocumentBlock) :
    ∀ c : Nat, (specInserts c bs).map (fun p => p.1) = bs.map (fun b => b.text ++ "\n") := by
  induction bs with
  | nil => intro c; rfl
  | cons b rest ih => intro c; simp [specInserts, ih]

/-- A list of positive lengths laid out end to end from `c` tiles
`[c, c + sum)`: every position belongs to exactly one interval. -/
theorem tile_lemma (ls : List Nat) (hpos : ∀ l ∈ ls, 0 < l) :
    ∀ c pos : Nat,
      (c ≤ pos ∧ pos < c + ls.sum) ↔
      ∃! i : Nat, ∃ h : i < ls.length,
        c + (ls.take i).sum ≤ pos ∧ pos < c + (ls.take i).sum + ls.get ⟨i, h⟩ := by
  induction ls with
  | nil =>
    intro c pos
    constructor
    · rintro ⟨h1, h2⟩
      simp only [List.sum_nil] at h2
      exact ((by omega : False)).elim
    · rintro ⟨i, ⟨h, _⟩, _⟩
      exact absurd h (by simp)
  | cons l ls ih =>
    intro c pos
    have hl : 0 < l := hpos l (List.mem_cons_self l ls)
    have hpos2 : ∀ x ∈ ls, 0 < x := fun x hx => hpos x (List.mem_cons_of_mem _ hx)
    by_cases hcase : pos < c + l
    · constructor
      · rintro ⟨h1, _⟩
        refine ⟨0, ⟨by simp, by simpa using h1, by simpa using hcase⟩, ?_⟩
        rintro j ⟨hj, hj1, hj2⟩
        match j with
        | 0 => rfl
        | k + 1 =>
          exfalso
          simp only [List.take_succ_cons, List.sum_cons] at hj1
          omega
      · rintro ⟨i, ⟨hi, hi1, hi2⟩, _⟩
        match i with
        | 0 =>
          simp only [List.take_zero, List.sum_nil, Nat.add_zero, List.get] at hi1 hi2
          simp only [List.sum_cons]
          omega
        | k + 1 =>
          simp only [List.take_succ_cons, List.sum_cons, List.length_cons] at hi1 hi2 ⊢
          have hk : k < ls.length := by simpa using hi
          have hdrop : ls.get ⟨k, hk⟩ :: ls.drop (k + 1) = ls.drop k :=
            List.getElem_cons_drop ls k hk
          have hsum : (ls.take k).sum + (ls.drop k).sum = ls.sum := by
            rw [← List.sum_append, List.take_append_drop]
          have hget : ls.get ⟨k, hk⟩ ≤ (ls.drop k).sum := by
            rw [← hdrop, List.sum_cons]; omega
          have hget2 : ((l :: ls).get ⟨(k : Nat) + 1, hi⟩ : Nat) = ls.get ⟨k, hk⟩ := rfl
          rw [hget2] at hi2
          omega
    · have key := ih hpos2 (c + l) pos
      constructor
      · rintro ⟨h1, h2⟩
        have h3 : (c + l) ≤ pos ∧ pos < (c + l) + ls.sum := by
          simp only [List.sum_cons] at h2
          omega
        obtain ⟨i, ⟨hi, hi1, hi2⟩, huni⟩ := key.mp h3
        refine ⟨i + 1, ⟨by simpa using Nat.succ_lt_succ hi, ?_, ?_⟩, ?_⟩
        · simp only [List.take_succ_cons, List.sum_cons]; omega
        · simp only [List.take_succ_cons, List.sum_cons]
          have : ((l :: ls).get ⟨(i : Nat) + 1, by simpa using Nat.succ_lt_succ hi⟩ : Nat) =
              ls.get ⟨i, hi⟩ := rfl
          rw [this]; omega
        · rintro j ⟨hj, hj1, hj2⟩
          match j with
          | 0 =>
            exfalso
            simp only [List.take_zero, List.sum_nil, Nat.add_zero, List.get] at hj2
            omega
          | k + 1 =>
            have hk : k < ls.length := by simpa using hj
            have : k = i := by
              apply huni
              refine ⟨hk, ?_, ?_⟩
              · simp only [List.take_succ_cons, List.sum_cons] at hj1; omega
              · simp only [List.take_succ_cons, List.sum_cons] at hj2
                have hg : ((l :: ls).get ⟨(k : Nat) + 1, hj⟩ : Nat) = ls.get ⟨k, hk⟩ := rfl
                rw [hg] at hj2; omega
            omega
      · rintro ⟨i, ⟨hi, hi1, hi2⟩, huni⟩
        match i with
        | 0 =>
          exfalso
          simp only [List.take_zero, List.sum_nil, Nat.add_zero, List.get] at hi2
          omega
        | k + 1 =>
          have hk : k < ls.length := by simpa using hi
          have hls : (c + l) ≤ pos ∧ pos < (c + l) + ls.sum := by
            apply key.mpr
            refine ⟨k, ⟨hk, ?_, ?_⟩, ?_⟩
            · simp only [List.take_succ_cons, List.sum_cons] at hi1; omega
            · simp only [List.take_succ_cons, List.sum_cons] at hi2
              have hg : ((l :: ls).get ⟨(k : Nat) + 1, hi⟩ : Nat) = ls.get ⟨k, hk⟩ := rfl
              rw [hg] at hi2; omega
            · rintro j ⟨hj, hj1, hj2⟩
              have hj01 : (j : Nat) + 1 < (l :: ls).length := by simpa using Nat.succ_lt_succ hj
              have : j + 1 = k + 1 := by
                apply huni
                refine ⟨hj01, ?_, ?_⟩
                · simp only [List.take_succ_cons, List.sum_cons]; omega
                · simp only [List.take_succ_cons, List.sum_cons]
                  have hg : ((l :: ls).get ⟨(j : Nat) + 1, hj01⟩ : Nat) = ls.get ⟨j, hj⟩ := rfl
                  rw [hg]; omega
              omega
          simp only [List.sum_cons]
          omega

/-! ## C1 -/

/-- C1: for every Block sequence, the `InsertText` requests are, in
emission order, exactly one per block carrying `text + "\n"` at the
block's start offset (cursor from 1, advancing by `len + 1`); their
concatenated texts equal the full linear document text; and the
per-block intervals `[blockStart, blockStart + len + 1)` tile the
stream positions `[1, 1 + length)` with no gap and no overlap (each
position lies in exactly one interval). -/
theorem c1_cursor_partition (bs : List DocumentBlock) :
    insertTextsOf (blocksToRequests bs) = specInserts 1 bs
    ∧ concatStrings ((insertTextsOf (blocksToRequests bs)).map (fun p => p.1)) = fullText bs
    ∧ (fullText bs).length = sumLens bs
    ∧ ∀ pos : Nat,
        (1 ≤ pos ∧ pos < 1 + sumLens bs) ↔
        ∃! i : Nat, ∃ h : i < bs.length,
          startAt bs i ≤ pos ∧ pos < startAt bs i + ((bs.get ⟨i, h⟩).text.length + 1) := by
  have hchar : insertTextsOf (blocksToRequests bs) = specInserts 1 bs := by
    have := insertTextsOf_generate (computeMaxColumn bs) bs initGenState
    simpa [blocksToRequests, initGenState] using this
  refine ⟨hchar, ?_, ?_, ?_⟩
  · rw [hchar, specInserts_fsts, fullText]
  · rw [fullText, concatStrings_length, sumLens, List.map_map]
    congr 1
    exact List.map_congr_left fun b _ => by
      simp [Function.comp, String.length_append]
      rfl
  · intro pos
    have hpos : ∀ l ∈ bs.map (fun b => b.text.length + 1), 0 < l := by
      intro l hl
      obtain ⟨b, _, rfl⟩ := List.mem_map.mp hl
      omega
    have := tile_lemma (bs.map fun b => b.text.length + 1) hpos 1 pos
    rw [show (bs.map fun b => b.text.length + 1).sum = sumLens bs from rfl] at this
    rw [this]
    constructor
    · rintro ⟨i, ⟨hi, hi1, hi2⟩, huni⟩
      have hib : i < bs.length := by simpa using hi
      refine ⟨i, ⟨hib, ?_, ?_⟩, ?_⟩
      · simpa [startAt, sumLens, List.map_take] using hi1
      · have hget : ((bs.map fun b => b.text.length + 1).get ⟨i, hi⟩) =
            (bs.get ⟨i, hib⟩).text.length + 1 := by
          simp [List.get_map]
        rw [hget] at hi2
        simpa [startAt, sumLens, List.map_take] using hi2
      · rintro j ⟨hj, hj1, hj2⟩
        apply huni
        have hjm : j < (bs.map fun b => b.text.length + 1).length := by simpa using hj
        refine ⟨hjm, ?_, ?_⟩
        · simpa [startAt, sumLens, List.map_take] using hj1
        · have hget : ((bs.map fun b => b.text.length + 1).get ⟨j, hjm⟩) =
              (bs.get ⟨j, hj⟩).text.length + 1 := by
            simp [List.get_map]
          rw [hget]
          simpa [startAt, sumLens, List.map_take] using hj2
    · rintro ⟨i, ⟨hi, hi1, hi2⟩, huni⟩
      have him : i < (bs.map fun b => b.text.length + 1).length := by simpa using hi
      refine ⟨i, ⟨him, ?_, ?_⟩, ?_⟩
      · simpa [startAt, sumLens, List.map_take] using hi1
      · have hget : ((bs.map fun b => b.text.length + 1).get ⟨i, him⟩) =
            (bs.get ⟨i, hi⟩).text.length + 1 := by
          simp [List.get_map]
        rw [hget]
        simpa [startAt, sumLens, List.map_take] using hi2
      · rintro j ⟨hj, hj1, hj2⟩
        apply huni
        have hjb : j < bs.length := by simpa using hj
        refine ⟨hjb, ?_, ?_⟩
        · simpa [startAt, sumLens, List.map_take] using hj1
        · have hget : ((bs.map fun b => b.text.length + 1).get ⟨j, hj⟩) =
              (bs.get ⟨j, hjb⟩).text.length + 1 := by
            simp [List.get_map]
          rw [hget] at hj2
          simpa [startAt, sumLens, List.map_take] using hj2

/-! ## C2 / C10 support: the `updateTextStyle` requests -/

theorem utsOf_nil : utsOf [] = [] := rfl

theorem utsOf_append (l₁ l₂ : List Request) :
    utsOf (l₁ ++ l₂) = utsOf l₁ ++ utsOf l₂ :=
  List.filterMap_append l₁ l₂ _

theorem utsOf_listStep (a t : Nat) (b : DocumentBlock) (g : ListGroup) :
    utsOf (listStep a t b g).1 = [] := by
  unfold listStep
  rcases b.listInfo with _ | li <;> cases b.isListItem <;>
    simp [utsOf] <;> split_ifs <;> simp [utsOf]

theorem utsOf_tableStep (mc : Nat) (tsi : Option Nat) (ti isCell : Bool) :
    utsOf (tableStep mc tsi ti isCell).1 = [] := by
  unfold tableStep; split_ifs <;> simp [utsOf]

theorem utsOf_finalFlush (g : ListGroup) : utsOf (finalFlush g) = [] := by
  unfold finalFlush; split_ifs <;> simp [utsOf]

theorem utsOf_cons_uts (a e : Nat) (st : TextStyle) (f : String) (l : List Request) :
    utsOf (Request.updateTextStyle a e st f :: l) = (a, e, st, f) :: utsOf l := rfl

theorem utsOf_map_uts (cur tl : Nat) (l : List InlineStyle) :
    utsOf (l.map fun st =>
        Request.updateTextStyle (cur + st.start) (cur + Nat.min st.«end» tl)
          (transformTextStyle st.textStyle) "*") =
      l.map fun st =>
        (cur + st.start, cur + Nat.min st.«end» tl, transformTextStyle st.textStyle, "*") := by
  induction l with
  | nil => rfl
  | cons x xs ihx => rw [List.map_cons, List.map_cons, utsOf_cons_uts, ihx]

theorem utsOf_styleRequests (cur : Nat) (b : DocumentBlock) :
    utsOf (styleRequests cur b.text.length b.inlineStyles) = blockUts cur b := by
  rcases h : b.inlineStyles with _ | l
  · simp [styleRequests, blockUts, utsOf, h]
  · simp only [styleRequests, blockUts, h]
    exact utsOf_map_uts cur b.text.length l

theorem utsOf_step (mc : Nat) (b : DocumentBlock) (s : GenState) :
    utsOf (step mc b s).1 = blockUts s.currentIndex b := by
  rw [step_fst]
  rw [utsOf_append, utsOf_append, utsOf_append, utsOf_listStep, utsOf_tableStep,
    utsOf_styleRequests]
  rw [show utsOf [Request.insertText (b.text ++ "\n") s.currentIndex,
      Request.updateParagraphStyle s.currentIndex (s.currentIndex + (b.text.length + 1))
        (ParagraphStyleUpdate.named b.paragraphStyle.namedStyleType) "*"] = [] from rfl]
  simp

theorem utsOf_generate (mc : Nat) (bs : List DocumentBlock) :
    ∀ s : GenState, utsOf (generate mc bs s) = specUts s.currentIndex bs := by
  induction bs with
  | nil => intro s; simpa [generate, specUts] using utsOf_finalFlush s.listGroup
  | cons b rest ih =>
    intro s
    rw [show generate mc (b :: rest) s =
        (step mc b s).1 ++ generate mc rest (step mc b s).2 from rfl,
      utsOf_append, utsOf_step, ih, step_currentIndex]
    rfl

theorem specUts_mem (bs : List DocumentBlock) :
    ∀ (cur i : Nat) (h : i < bs.length) (st : InlineStyle),
      st ∈ stylesOf (bs.get ⟨i, h⟩) →
      (cur + sumLens (bs.take i) + st.start,
       cur + sumLens (bs.take i) + Nat.min st.«end» (bs.get ⟨i, h⟩).text.length,
       transformTextStyle st.textStyle, "*") ∈ specUts cur bs := by
  induction bs with
  | nil => intro cur i h; exact absurd h (by simp)
  | cons b rest ih =>
    intro cur i h st hst
    match i with
    | 0 =>
      simp only [List.take_zero, sumLens, List.map_nil, List.sum_nil, Nat.add_zero]
      rw [show specUts cur (b :: rest) = blockUts cur b ++ specUts (cur + b.text.length + 1) rest
        from rfl]
      apply List.mem_append_left
      simp only [List.get] at hst
      unfold stylesOf at hst
      unfold blockUts
      rcases hb : b.inlineStyles with _ | l
      · rw [hb] at hst; simp at hst
      · rw [hb] at hst
        simp only [Option.getD] at hst
        exact List.mem_map.mpr ⟨st, hst, rfl⟩
    | k + 1 =>
      have hk : k < rest.length := by simpa using h
      have hmem := ih (cur + b.text.length + 1) k hk st (by simpa using hst)
      rw [show specUts cur (b :: rest) = blockUts cur b ++ specUts (cur + b.text.length + 1) rest
        from rfl]
      apply List.mem_append_right
      have hsum : cur + sumLens ((b :: rest).take (k + 1)) =
          cur + b.text.length + 1 + sumLens (rest.take k) := by
        simp [sumLens, List.take_succ_cons]
        omega
      rw [hsum]
      rw [show ((b :: rest).get ⟨(k : Nat) + 1, h⟩) = rest.get ⟨k, hk⟩ from rfl]
      exact hmem

theorem utsOf_mem_request (l : List Request) (a e : Nat) (st : TextStyle) (f : String) :
    (a, e, st, f) ∈ utsOf l → Request.updateTextStyle a e st f ∈ l := by
  intro hm
  obtain ⟨r, hr, heq⟩ := List.mem_filterMap.mp hm
  cases r <;> simp at heq
  obtain ⟨h1, h2, h3, h4⟩ := heq
  subst h1; subst h2; subst h3; subst h4
  exact hr

theorem utsOf_blocksToRequests (bs : List DocumentBlock) :
    utsOf (blocksToRequests bs) = specUts 1 bs := by
  have := utsOf_generate (computeMaxColumn bs) bs initGenState
  simpa [blocksToRequests, initGenState] using this

/-- Shared membership lemma: the request a block's inline interval
produces is in the generator's output. -/
theorem uts_request_emitted (bs : List DocumentBlock) (i : Nat) (h : i < bs.length)
    (st : InlineStyle) (hst : st ∈ stylesOf (bs.get ⟨i, h⟩)) :
    Request.updateTextStyle (startAt bs i + st.start)
      (startAt bs i + Nat.min st.«end» (bs.get ⟨i, h⟩).text.length)
      (transformTextStyle st.textStyle) "*" ∈ blocksToRequests bs := by
  apply utsOf_mem_request
  rw [utsOf_blocksToRequests]
  have := specUts_mem bs 1 i h st hst
  simpa [startAt] using this

/-! ## C2 -/

/-- C2: for every block and every inline style interval on it, the
generator emits an `updateTextStyle` request with range
`[blockStart + start, blockStart + min(end, len(text)))`, and that
emitted end index never exceeds `blockStart + len(text)` — the
auto-appended separator at offset `blockStart + len(text)` is never
covered. -/
theorem c2_style_clamp (bs : List DocumentBlock) (i : Nat) (h : i < bs.length)
    (st : InlineStyle) (hst : st ∈ stylesOf (bs.get ⟨i, h⟩)) :
    Request.updateTextStyle (startAt bs i + st.start)
      (startAt bs i + Nat.min st.«end» (bs.get ⟨i, h⟩).text.length)
      (transformTextStyle st.textStyle) "*" ∈ blocksToRequests bs
    ∧ startAt bs i + Nat.min st.«end» (bs.get ⟨i, h⟩).text.length ≤
        startAt bs i + (bs.get ⟨i, h⟩).text.length := by
  constructor
  · exact uts_request_emitted bs i h st hst
  · exact Nat.add_le_add_left (Nat.min_le_right _ _) _

/-- Witness for C2 at the spec's scenario 2: `"Hello World"` with bold
`[6, 11)` yields `updateTextStyle` over `[7, 12)`, within the text's
end offset `12`. -/
theorem c2_style_clamp_witness :
    Request.updateTextStyle 7 12 ⟨some true, none, none, none, none⟩ "*" ∈
      blocksToRequests [helloWorldBlock]
    ∧ (12 : Nat) ≤ 12 := by
  have h := c2_style_clamp [helloWorldBlock] 0 (by decide)
    ⟨6, 11, ⟨some true, none, none, none, none⟩⟩ (by decide)
  exact ⟨h.1, by omega⟩

/-! ## C10 -/

/-- C10: the generator clamps only the interval end, never the start:
the emitted start index is `blockStart + start` unconditionally; and on
the concrete block `"a"` with interval `[5, 6)` this produces the
inverted range `[6, 2)` (start strictly greater than end) rather than a
rejection. -/
theorem c10_start_unclamped :
    (∀ (bs : List DocumentBlock) (i : Nat) (h : i < bs.length) (st : InlineStyle),
       st ∈ stylesOf (bs.get ⟨i, h⟩) →
       Request.updateTextStyle (startAt bs i + st.start)
         (startAt bs i + Nat.min st.«end» (bs.get ⟨i, h⟩).text.length)
         (transformTextStyle st.textStyle) "*" ∈ blocksToRequests bs)
    ∧ Request.updateTextStyle 6 2 emptyStyle "*" ∈ blocksToRequests [badStartBlock]
    ∧ 2 < 6 := by
  exact ⟨uts_request_emitted, by decide, by omega⟩

/-! ## C3 support: the state at a table region's first cell -/

theorem generate_append (mc : Nat) (xs : List DocumentBlock) :
    ∀ (ys : List DocumentBlock) (s : GenState),
      generate mc (xs ++ ys) s = emitted mc xs s ++ generate mc ys (stateAfter mc xs s) := by
  induction xs with
  | nil => intro ys s; rfl
  | cons x xt ih =>
    intro ys s
    rw [show (x :: xt) ++ ys = x :: (xt ++ ys) from rfl]
    rw [show generate mc (x :: (xt ++ ys)) s =
        (step mc x s).1 ++ generate mc (xt ++ ys) (step mc x s).2 from rfl]
    rw [ih ys (step mc x s).2]
    simp [emitted, stateAfter]

theorem stateAfter_snoc (mc : Nat) (xs : List DocumentBlock) :
    ∀ (x : DocumentBlock) (s : GenState),
      stateAfter mc (xs ++ [x]) s = (step mc x (stateAfter mc xs s)).2 := by
  induction xs with
  | nil => intro x s; rfl
  | cons y yt ih =>
    intro x s
    simp only [List.cons_append, stateAfter]
    exact ih x (step mc y s).2

theorem stateAfter_currentIndex (mc : Nat) (bs : List DocumentBlock) :
    ∀ s : GenState, (stateAfter mc bs s).currentIndex = s.currentIndex + sumLens bs := by
  induction bs with
  | nil => intro s; simp [stateAfter, sumLens]
  | cons b rest ih =>
    intro s
    rw [show stateAfter mc (b :: rest) s = stateAfter mc rest (step mc b s).2 from rfl, ih,
      step_currentIndex]
    simp [sumLens]
    omega

theorem tableStep_notCell (mc : Nat) (tsi : Option Nat) (ti : Bool) :
    tableStep mc tsi ti false = ([], none, false) := rfl

theorem step_reset (mc : Nat) (b : DocumentBlock) (s : GenState)
    (hb : b.tableInfo = none) :
    (step mc b s).2.tableStartIndex = none ∧ (step mc b s).2.tableInitialized = false := by
  rw [step_tableInitialized, step_tableStartIndex, show b.tableInfo.isSome = false from by
    rw [hb]; rfl, tableStep_notCell]
  exact ⟨rfl, rfl⟩

theorem step_fst_firstCell (mc : Nat) (b : DocumentBlock) (s : GenState)
    (hb : b.tableInfo.isSome = true) (h1 : s.tableStartIndex = none)
    (h2 : s.tableInitialized = false) :
    (step mc b s).1 =
      [Request.insertText (b.text ++ "\n") s.currentIndex,
       Request.updateParagraphStyle s.currentIndex (s.currentIndex + (b.text.length + 1))
         (ParagraphStyleUpdate.named b.paragraphStyle.namedStyleType) "*"] ++
      styleRequests s.currentIndex b.text.length b.inlineStyles ++
      (listStep s.currentIndex b.text.length b s.listGroup).1 ++
      [Request.insertTable s.currentIndex 1 mc] := by
  obtain ⟨ti, hti⟩ := Option.isSome_iff_exists.mp hb
  rw [step_fst]
  congr 1
  rw [show tsiOf b s = some s.currentIndex from by unfold tsiOf; rw [h1, hti], hb, h2]
  rfl

theorem startAt_append_left (pre : List DocumentBlock) (rest : List DocumentBlock) :
    startAt (pre ++ rest) pre.length = 1 + sumLens pre := by
  rw [startAt, List.take_left]

/-! ## C3 -/

/-- C3 (amended): for every block sequence with a table region starting
at block `b` (the preceding block, if any, is not a cell), the region's
`CreateTable` request targets the same offset as the first cell's
`InsertText`, but appears in the output array *after* that `InsertText`
(at the end of the first cell's request group), not before it. -/
theorem c3_table_order_amended (pre : List DocumentBlock) (b : DocumentBlock)
    (post : List DocumentBlock) (hb : b.tableInfo.isSome = true)
    (hpre : pre = [] ∨ ∃ lb, pre.getLast? = some lb ∧ lb.tableInfo = none) :
    ∃ A B C : List Request,
      blocksToRequests (pre ++ b :: post) =
        A ++ Request.insertText (b.text ++ "\n") (startAt (pre ++ b :: post) pre.length) ::
          (B ++ Request.insertTable (startAt (pre ++ b :: post) pre.length) 1
              (computeMaxColumn (pre ++ b :: post)) :: C) := by
  set mc := computeMaxColumn (pre ++ b :: post) with hmc
  set s1 := stateAfter mc pre initGenState with hs1
  have hcur : s1.currentIndex = 1 + sumLens pre := by
    rw [hs1, stateAfter_currentIndex]
    rfl
  have hreset : s1.tableStartIndex = none ∧ s1.tableInitialized = false := by
    rcases hpre with hnil | ⟨lb, hl, hnone⟩
    · rw [hs1, hnil]; exact ⟨rfl, rfl⟩
    · have hne : pre ≠ [] := by
        intro hc; rw [hc] at hl; simp at hl
      have hsplit : pre = pre.dropLast ++ [pre.getLast hne] := by
        rw [List.dropLast_append_getLast]
      have hlb : pre.getLast hne = lb := by
        have := List.getLast?_eq_getLast pre hne
        rw [this] at hl
        exact Option.some_injective _ hl
      rw [hs1, hsplit, stateAfter_snoc]
      exact step_reset mc _ _ (by rw [hlb]; exact hnone)
  rw [show blocksToRequests (pre ++ b :: post) =
      generate mc (pre ++ b :: post) initGenState from rfl]
  rw [generate_append, ← hs1]
  rw [show generate mc (b :: post) s1 = (step mc b s1).1 ++ generate mc post (step mc b s1).2
    from rfl]
  rw [step_fst_firstCell mc b s1 hb hreset.1 hreset.2]
  rw [startAt_append_left, ← hcur]
  refine ⟨emitted mc pre initGenState,
    Request.updateParagraphStyle s1.currentIndex (s1.currentIndex + (b.text.length + 1))
        (ParagraphStyleUpdate.named b.paragraphStyle.namedStyleType) "*" ::
      (styleRequests s1.currentIndex b.text.length b.inlineStyles ++
       (listStep s1.currentIndex b.text.length b s1.listGroup).1),
    generate mc post (step mc b s1).2, ?_⟩
  simp

/-- Witness for C3's amended theorem at a single-cell sequence. -/
theorem c3_table_order_amended_witness :
    ∃ A B C : List Request,
      blocksToRequests [cellBlockA] =
        A ++ Request.insertText "A\n" 1 :: (B ++ Request.insertTable 1 1 1 :: C) := by
  have h := c3_table_order_amended [] cellBlockA [] (by decide) (Or.inl rfl)
  exact h

/-- Counterexample to C3 as stated: for the one-cell sequence the
`insertTable` request does *not* appear before the first cell's
`insertText` — it comes after it. -/
theorem c3_counterexample :
    blocksToRequests [cellBlockA] =
      [Request.insertText "A\n" 1,
       Request.updateParagraphStyle 1 3 (ParagraphStyleUpdate.named "NORMAL_TEXT") "*",
       Request.insertTable 1 1 1]
    ∧ ¬ appearsBefore (Request.insertTable 1 1 1) (Request.insertText "A\n" 1)
        (blocksToRequests [cellBlockA]) := by
  decide

/-! ## C4 support: the `insertTable` requests -/

theorem insertTablesOf_nil : insertTablesOf [] = [] := rfl

theorem insertTablesOf_append (l₁ l₂ : List Request) :
    insertTablesOf (l₁ ++ l₂) = insertTablesOf l₁ ++ insertTablesOf l₂ :=
  List.filterMap_append l₁ l₂ _

theorem insertTablesOf_styleRequests (a t : Nat) (o : Option (List InlineStyle)) :
    insertTablesOf (styleRequests a t o) = [] := by
  cases o <;> simp [styleRequests, insertTablesOf, List.filterMap_map, Function.comp]

theorem insertTablesOf_listStep (a t : Nat) (b : DocumentBlock) (g : ListGroup) :
    insertTablesOf (listStep a t b g).1 = [] := by
  unfold listStep
  rcases b.listInfo with _ | li <;> cases b.isListItem <;>
    simp [insertTablesOf] <;> split_ifs <;> simp [insertTablesOf]

theorem insertTablesOf_finalFlush (g : ListGroup) :
    insertTablesOf (finalFlush g) = [] := by
  unfold finalFlush; split_ifs <;> simp [insertTablesOf]

theorem insertTablesOf_step (mc : Nat) (b : DocumentBlock) (s : GenState) :
    insertTablesOf (step mc b s).1 =
      if b.tableInfo.isSome ∧ ¬ s.tableInitialized then [((tsiOf b s).getD 0, 1, mc)]
      else [] := by
  rw [step_fst, insertTablesOf_append, insertTablesOf_append, insertTablesOf_append,
    insertTablesOf_styleRequests, insertTablesOf_listStep]
  rw [show insertTablesOf [Request.insertText (b.text ++ "\n") s.currentIndex,
      Request.updateParagraphStyle s.currentIndex (s.currentIndex + (b.text.length + 1))
        (ParagraphStyleUpdate.named b.paragraphStyle.namedStyleType) "*"] = [] from rfl]
  unfold tableStep
  cases hc : b.tableInfo.isSome <;> cases ht : s.tableInitialized <;>
    simp [insertTablesOf]

theorem step_tinit (mc : Nat) (b : DocumentBlock) (s : GenState) :
    (step mc b s).2.tableInitialized = b.tableInfo.isSome := by
  rw [step_tableInitialized]
  unfold tableStep
  cases hc : b.tableInfo.isSome <;> cases ht : s.tableInitialized <;> simp

theorem tables_generate (mc : Nat) (bs : List DocumentBlock) :
    ∀ s : GenState,
      (insertTablesOf (generate mc bs s)).map (fun x => (x.2.1, x.2.2)) =
        List.replicate (countRegionsFrom s.tableInitialized bs) (1, mc) := by
  induction bs with
  | nil =>
    intro s
    simp [generate, countRegionsFrom, insertTablesOf_finalFlush]
  | cons b rest ih =>
    intro s
    rw [show generate mc (b :: rest) s =
        (step mc b s).1 ++ generate mc rest (step mc b s).2 from rfl,
      insertTablesOf_append, List.map_append, insertTablesOf_step, ih, step_tinit]
    rw [show countRegionsFrom s.tableInitialized (b :: rest) =
        (if b.tableInfo.isSome ∧ ¬ s.tableInitialized then 1 else 0) +
          countRegionsFrom b.tableInfo.isSome rest from rfl]
    by_cases hc : b.tableInfo.isSome ∧ ¬ s.tableInitialized
    · rw [if_pos hc, if_pos hc, Nat.add_comm 1 _, List.replicate_succ]
      rfl
    · rw [if_neg hc, if_neg hc, List.map_nil, Nat.zero_add, List.nil_append]

/-! ## C4 -/

/-- C4 (amended): every `CreateTable` request carries `rows = 1`
(hard-coded) and `columns = maxColumn` computed once over the cell
blocks of the *entire* sequence (no per-region pre-pass), and exactly
one `CreateTable` is emitted per contiguous table region. -/
theorem c4_table_prepass_amended (bs : List DocumentBlock) :
    (insertTablesOf (blocksToRequests bs)).map (fun x => (x.2.1, x.2.2)) =
      List.replicate (countRegionsFrom false bs) (1, computeMaxColumn bs)
    ∧ (insertTablesOf (blocksToRequests bs)).length = countRegionsFrom false bs
    ∧ ∀ x ∈ insertTablesOf (blocksToRequests bs),
        x.2.1 = 1 ∧ x.2.2 = computeMaxColumn bs := by
  have hmap := tables_generate (computeMaxColumn bs) bs initGenState
  rw [show initGenState.tableInitialized = false from rfl] at hmap
  rw [show generate (computeMaxColumn bs) bs initGenState = blocksToRequests bs from rfl] at hmap
  refine ⟨hmap, ?_, ?_⟩
  · have := congrArg List.length hmap
    simpa using this
  · intro x hx
    have hx2 : (x.2.1, x.2.2) ∈
        List.replicate (countRegionsFrom false bs) (1, computeMaxColumn bs) := by
      rw [← hmap]
      exact List.mem_map_of_mem _ hx
    have := List.eq_of_mem_replicate hx2
    exact ⟨congrArg Prod.fst this, congrArg Prod.snd this⟩

/-- Counterexample to C4 as stated: a one-region table whose cells have
two distinct `rowIndex` values still gets `rows = 1`; and a second
table region reuses the single global column count (3, from the first
region) although its own cells span only 1 column. -/
theorem c4_counterexample :
    insertTablesOf (blocksToRequests twoRowCells) = [(1, 1, 1)]
    ∧ distinctRowCount twoRowCells = 2
    ∧ (1 : Nat) ≠ 2
    ∧ insertTablesOf (blocksToRequests twoRegions) = [(1, 1, 3), (5, 1, 3)]
    ∧ computeMaxColumn [⟨"B", ⟨"NORMAL_TEXT"⟩, none, false, none, some ⟨0, 0, 1, 1⟩⟩] = 1
    ∧ (3 : Nat) ≠ 1 := by
  decide

/-! ## C6 support: lookups through `jsSpread` and the merge fold -/

theorem lookupAppend {β : Type} (x y : List (String × β)) (k : String) :
    (x ++ y).lookup k = ((x.lookup k).orElse fun _ => y.lookup k) := by
  induction x with
  | nil => cases h : y.lookup k <;> simp [List.lookup, h]
  | cons p xs ih =>
    obtain ⟨k1, v1⟩ := p
    by_cases hk : k = k1
    · subst hk; simp [List.lookup]
    · simp only [List.cons_append, List.lookup,
        show (k == k1) = false from beq_false_of_ne hk]
      exact ih

theorem lookupMapOverride (a b : StyleDict) (k : String) :
    (a.map fun kv =>
        match b.lookup kv.1 with
        | some v => (kv.1, v)
        | none => kv).lookup k =
      match a.lookup k, b.lookup k with
      | some _, some w => some w
      | some v, none => some v
      | none, _ => none := by
  induction a with
  | nil => cases b.lookup k <;> rfl
  | cons p xs ih =>
    obtain ⟨k1, v1⟩ := p
    by_cases hk : k = k1
    · subst hk
      cases hb : b.lookup k <;> simp [List.lookup, hb]
    · have hbeq : (k == k1) = false := beq_false_of_ne hk
      cases hb : b.lookup k1 <;>
        simp only [List.map_cons, List.lookup, hb, hbeq] <;> exact ih

theorem lookupFilterKeys (b : StyleDict) (p : String → Bool) (k : String) :
    (b.filter fun kv => p kv.1).lookup k = if p k then b.lookup k else none := by
  induction b with
  | nil => simp [List.lookup]
  | cons q bs ih =>
    obtain ⟨k1, v1⟩ := q
    by_cases hk : k = k1
    · subst hk
      cases hp : p k <;> simp [List.filter, List.lookup, hp, ih]
    · have hbeq : (k == k1) = false := beq_false_of_ne hk
      cases hp : p k1 <;> simp [List.filter, List.lookup, hp, hbeq, ih]

theorem lookup_jsSpread (a b : StyleDict) (k : String) :
    (jsSpread a b).lookup k = ((b.lookup k).orElse fun _ => a.lookup k) := by
  unfold jsSpread
  rw [lookupAppend, lookupMapOverride,
    lookupFilterKeys b (fun x => (List.lookup x a).isNone) k]
  cases ha : a.lookup k <;> cases hb : b.lookup k <;> simp [ha, hb]

theorem findAppend (p : FormattingRange → Bool) (l₁ l₂ : List FormattingRange) :
    (l₁ ++ l₂).find? p = ((l₁.find? p).orElse fun _ => l₂.find? p) := by
  induction l₁ with
  | nil => rfl
  | cons x xs ih =>
    cases hp : p x
    · rw [List.cons_append, List.find?_cons_of_neg _ (by simp [hp]),
        List.find?_cons_of_neg _ (by simp [hp])]
      exact ih
    · rw [List.cons_append, List.find?_cons_of_pos _ hp, List.find?_cons_of_pos _ hp]
      rfl

theorem foldl_jsSpread_lookup (rs : List FormattingRange) :
    ∀ (style : StyleDict) (k : String),
      (rs.foldl (fun acc r => jsSpread acc r.style) style).lookup k =
        match lastStyleWith rs k with
        | some r => r.style.lookup k
        | none => style.lookup k := by
  induction rs with
  | nil => intro style k; rfl
  | cons r rest ih =>
    intro style k
    rw [List.foldl_cons, ih]
    unfold lastStyleWith
    rw [List.reverse_cons, findAppend]
    rcases h : rest.reverse.find? (fun r => (r.style.lookup k).isSome) with _ | r2
    · cases hr : r.style.lookup k <;>
        simp [h, List.find?, hr, lookup_jsSpread]
    · simp [h, lookup_jsSpread]

/-! ## C6 -/

/-- C6 (amended): when a registration overlaps already-registered
ranges, `addFormattingRange` removes every overlapping entry and pushes
one merged entry whose range is the translated range of the new
registration, and whose style dictionary is the key-wise union in which
an *already-registered* range's value wins over the new registration on
every conflicting key (among several overlapping entries, the
latest-registered wins). -/
theorem c6_overlap_merge_amended (ag : TextAggregator) (so eo : Nat)
    (style : StyleDict) (hov : overlappingOf ag so eo ≠ []) :
    (addFormattingRange ag so eo style).formattingRanges =
      (ag.formattingRanges.filter fun r =>
        !(overlapsRange (actualRange ag so eo).1 (actualRange ag so eo).2 r)) ++
      [⟨(actualRange ag so eo).1, (actualRange ag so eo).2, mergedStyleOf ag so eo style⟩]
    ∧ ∀ k : String,
        (mergedStyleOf ag so eo style).lookup k =
          match lastStyleWith (overlappingOf ag so eo) k with
          | some r => r.style.lookup k
          | none => style.lookup k := by
  constructor
  · unfold addFormattingRange
    rw [if_neg (by simpa [overlappingOf, List.isEmpty_iff] using hov)]
    rfl
  · intro k
    exact foldl_jsSpread_lookup (overlappingOf ag so eo) style k

/-- Witness for C6's amended theorem at the concrete state `agg0`
(buffer without spaces, one registered range `[0, 5)`), registering
`[3, 8)`. -/
theorem c6_overlap_merge_amended_witness :
    (addFormattingRange agg0 3 8 [("bold", "B")]).formattingRanges =
      (agg0.formattingRanges.filter fun r =>
        !(overlapsRange (actualRange agg0 3 8).1 (actualRange agg0 3 8).2 r)) ++
      [⟨(actualRange agg0 3 8).1, (actualRange agg0 3 8).2,
        mergedStyleOf agg0 3 8 [("bold", "B")]⟩] :=
  (c6_overlap_merge_amended agg0 3 8 [("bold", "B")] (by decide)).1

/-- Counterexample to C6 as stated: at `agg0`, registering `[3, 8)`
with `bold ↦ "B"` over the overlapping `[0, 5)` with `bold ↦ "A"`
produces one merged entry whose `bold` value is `"A"` — the *earlier*
registration's value, not the later one's. -/
theorem c6_counterexample :
    ((addFormattingRange agg0 3 8 [("bold", "B")]).formattingRanges.map
        fun r => (r.startIndex, r.endIndex, r.style.lookup "bold")) = [(3, 8, some "A")]
    ∧ some "A" ≠ some "B" := by
  decide

/-! ## C7 -/

/-- C7: the top-level HTML conversion entry point throws
`"HTML input must be a string"` for a non-string input and
`"HTML input cannot be empty"` for an input whose trim is empty (fail
fast, no partial output), and returns a request list — never an error —
for every other string, whatever tree the external parser produces. -/
theorem c7_input_validation (parse : String → HNodes) (input : JsInput) :
    (input = JsInput.notAString →
      convertHtml parse input = Except.error "HTML input must be a string")
    ∧ (∀ s : String, input = JsInput.ofString s → jsTrim s = "" →
      convertHtml parse input = Except.error "HTML input cannot be empty")
    ∧ (∀ s : String, input = JsInput.ofString s → jsTrim s ≠ "" →
      ∃ reqs : List Request, convertHtml parse input = Except.ok reqs) := by
  refine ⟨?_, ?_, ?_⟩
  · intro h; subst h; rfl
  · intro s h he; subst h; simp [convertHtml, he]
  · intro s h he; subst h
    refine ⟨blocksToRequests (parseHtmlToBlocks (parse s)), ?_⟩
    simp [convertHtml, he]

/-- Witness for C7: a non-string throws, a whitespace-only string
throws, and `"<p>x</p>"` (under a parser producing an empty tree)
returns a request list. -/
theorem c7_input_validation_witness :
    convertHtml (fun _ => HNodes.nil) JsInput.notAString =
      Except.error "HTML input must be a string"
    ∧ convertHtml (fun _ => HNodes.nil) (JsInput.ofString " ") =
      Except.error "HTML input cannot be empty"
    ∧ ∃ reqs : List Request,
        convertHtml (fun _ => HNodes.nil) (JsInput.ofString "<p>x</p>") =
          Except.ok reqs :=
  ⟨(c7_input_validation (fun _ => HNodes.nil) JsInput.notAString).1 rfl,
   (c7_input_validation (fun _ => HNodes.nil) (JsInput.ofString " ")).2.1 " " rfl (by decide),
   (c7_input_validation (fun _ => HNodes.nil) (JsInput.ofString "<p>x</p>")).2.2
     "<p>x</p>" rfl (by decide)⟩

/-! ## C9 -/

/-- C9: the block extractor returns the empty block list for the empty
document (the external parser maps the empty string to a body with no
children), and the generator then produces the empty request
sequence. -/
theorem c9_empty_input :
    parseHtmlToBlocks HNodes.nil = []
    ∧ blocksToRequests (parseHtmlToBlocks HNodes.nil) = [] := by
  decide

/-! ## C8 support: the position tracker and traversal monotonicity -/

theorem lookup_set_map (m : List (String × Nat)) (k : String) (v : Nat) :
    m.any (fun p => p.1 = k) = true →
    (m.map fun p => if p.1 = k then (k, v) else p).lookup k = some v := by
  induction m with
  | nil => intro h; simp at h
  | cons p rest ih =>
    intro h
    obtain ⟨k1, v1⟩ := p
    by_cases hk : k1 = k
    · have hif : (if (k1, v1).1 = k then (k, v) else (k1, v1)) = (k, v) := if_pos hk
      rw [List.map_cons, hif]
      simp [List.lookup]
    · have h2 : rest.any (fun p => p.1 = k) = true := by
        simp only [List.any_cons, Bool.or_eq_true, decide_eq_true_eq] at h
        rcases h with h | h
        · exact absurd h hk
        · simpa using h
      have hif : (if (k1, v1).1 = k then (k, v) else (k1, v1)) = (k1, v1) := if_neg hk
      have hbeq : (k == k1) = false := beq_false_of_ne fun hc => hk hc.symm
      rw [List.map_cons, hif]
      simp only [List.lookup, hbeq]
      exact ih h2

theorem lookup_of_no_key (m : List (String × Nat)) (k : String) :
    m.any (fun p => p.1 = k) = false → m.lookup k = none := by
  induction m with
  | nil => intro _; rfl
  | cons p rest ih =>
    intro h
    obtain ⟨k1, v1⟩ := p
    rw [List.any_cons] at h
    obtain ⟨ha, hb⟩ := Bool.or_eq_false_iff.mp h
    have hk : ¬ (k1 = k) := of_decide_eq_false ha
    have hbeq : (k == k1) = false := beq_false_of_ne fun hc => hk hc.symm
    simp only [List.lookup, hbeq]
    exact ih hb

/-- `Map.set` then `get || 0` returns the set value. -/
theorem trackerGet_set (m : List (String × Nat)) (k : String) (v : Nat) :
    trackerGet (trackerSet m k v) k = v := by
  unfold trackerSet trackerGet
  split_ifs with h
  · rw [lookup_set_map m k v h]; rfl
  · rw [lookupAppend, lookup_of_no_key m k
      (by revert h; cases m.any fun p => p.1 = k <;> simp)]
    simp [List.lookup]

theorem MetaExt.refl (s : PState) : MetaExt s s :=
  ⟨Nat.le_refl _, fun _ _ => rfl⟩

theorem MetaExt.trans {s t u : PState} (h1 : MetaExt s t) (h2 : MetaExt t u) :
    MetaExt s u := by
  refine ⟨Nat.le_trans h1.1 h2.1, fun i hi => ?_⟩
  rw [h2.2 i (Nat.lt_of_lt_of_le hi h1.1), h1.2 i hi]

theorem MetaExt.of_blocks_eq (s t : PState) (h : t.blocks = s.blocks) : MetaExt s t := by
  refine ⟨by rw [h], fun i hi => by rw [h]⟩

theorem MetaExt.to_dropLast {s t : PState} (h : MetaExt s t) :
    MetaExt s ⟨t.blocks, t.listStack.dropLast, t.positionTracker⟩ :=
  MetaExt.trans h (MetaExt.of_blocks_eq t _ rfl)

theorem MetaExt.push {s : PState} (t : PState) {l : List DocumentBlock}
    (h : t.blocks = s.blocks ++ l) : MetaExt s t := by
  refine ⟨by rw [h]; simp, fun i hi => ?_⟩
  rw [h, List.get?_append hi]

theorem appendNlToLast_length (bs : List DocumentBlock) :
    (appendNlToLast bs).length = bs.length := by
  induction bs with
  | nil => rfl
  | cons b rest ih =>
    cases rest with
    | nil => rfl
    | cons c t => simpa [appendNlToLast] using ih

theorem appendNlToLast_meta (bs : List DocumentBlock) :
    ∀ i, ((appendNlToLast bs).get? i).map blockMeta = (bs.get? i).map blockMeta := by
  induction bs with
  | nil => intro i; rfl
  | cons b rest ih =>
    intro i
    cases rest with
    | nil =>
      match i with
      | 0 => rfl
      | n + 1 => rfl
    | cons c t =>
      match i with
      | 0 => rfl
      | n + 1 => simpa [appendNlToLast] using ih n

theorem MetaExt.appendNl (s : PState) (t : PState)
    (h : t.blocks = appendNlToLast s.blocks) : MetaExt s t := by
  refine ⟨by rw [h, appendNlToLast_length], fun i hi => by rw [h, appendNlToLast_meta]⟩

/-- The root-level bare-text push preserves existing blocks. -/
theorem metaExt_rootText (s : PState) (d : String) :
    MetaExt s
      (if jsTrim d = "" then s
       else { s with blocks :=
          s.blocks ++ [⟨jsTrim d, ⟨"NORMAL_TEXT"⟩, none, false, none, none⟩] }) := by
  split_ifs
  · exact MetaExt.refl s
  · exact MetaExt.push _ rfl

/-- The default-branch text push preserves existing blocks. -/
theorem metaExt_textIf (s : PState) (d : String) :
    MetaExt s
      (if jsTrim d ≠ "" ∧ s.blocks = [] then
        { s with blocks :=
          s.blocks ++ [⟨jsTrim d, ⟨"NORMAL_TEXT"⟩, none, false, none, none⟩] }
       else s) := by
  split_ifs
  · exact MetaExt.push _ rfl
  · exact MetaExt.refl s

mutual
/-- Processing any node only appends blocks and never changes the
structural metadata of blocks already emitted. -/
theorem processNode_meta : (n : HNode) → (lvl : Nat) → (s : PState) →
    MetaExt s (processNode n lvl s)
  | .text d, _, s => metaExt_rootText s d
  | .elem e, lvl, s => processElem_meta e lvl s

theorem processElem_meta : (e : HElem) → (lvl : Nat) → (s : PState) →
    MetaExt s (processElem e lvl s)
  | .mk tag attrs cs, lvl, s => by
    unfold processElem
    split <;>
      first
        | exact MetaExt.push _ rfl
        | exact MetaExt.appendNl _ _ rfl
        | exact procContents_meta cs lvl s
        | (dsimp only
           refine MetaExt.to_dropLast (MetaExt.trans ?_ (procChildrenElems_meta cs lvl
             ⟨s.blocks,
              s.listStack ++ [⟨decide (jsToLower tag = "ol"), lvl, 0⟩],
              trackerSet s.positionTracker (getPositionKey (decide (jsToLower tag = "ol")) lvl) 0⟩))
           exact MetaExt.of_blocks_eq s _ rfl)
        | (dsimp only
           split
           · exact MetaExt.refl s
           · exact MetaExt.trans (MetaExt.push _ rfl) (procNestedLists_meta cs _ _))

theorem procChildrenElems_meta : (ns : HNodes) → (lvl : Nat) → (s : PState) →
    MetaExt s (procChildrenElems ns lvl s)
  | .nil, _, s => MetaExt.refl s
  | .cons (.text _) rest, lvl, s => procChildrenElems_meta rest lvl s
  | .cons (.elem e) rest, lvl, s =>
    MetaExt.trans (processElem_meta e lvl s)
      (procChildrenElems_meta rest lvl (processElem e lvl s))

theorem procNestedLists_meta : (ns : HNodes) → (parentLevel : Nat) → (s : PState) →
    MetaExt s (procNestedLists ns parentLevel s)
  | .nil, _, s => MetaExt.refl s
  | .cons (.text _) rest, pl, s => procNestedLists_meta rest pl s
  | .cons (.elem e) rest, pl, s =>
    MetaExt.trans
      (by
        dsimp only
        split_ifs
        · refine MetaExt.to_dropLast (MetaExt.trans ?_ (processElem_meta e (pl + 1)
            ⟨s.blocks,
             s.listStack ++ [⟨decide (jsToLower e.tag = "ol"), pl + 1, 0⟩],
             trackerSet s.positionTracker
               (getPositionKey (decide (jsToLower e.tag = "ol")) (pl + 1)) 0⟩))
          exact MetaExt.of_blocks_eq s _ rfl
        · exact MetaExt.refl s)
      (procNestedLists_meta rest pl _)

theorem procContents_meta : (ns : HNodes) → (lvl : Nat) → (s : PState) →
    MetaExt s (procContents ns lvl s)
  | .nil, _, s => MetaExt.refl s
  | .cons (.text d) rest, lvl, s =>
    MetaExt.trans (metaExt_textIf s d) (procContents_meta rest lvl _)
  | .cons (.elem e) rest, lvl, s =>
    MetaExt.trans (processElem_meta e lvl s)
      (procContents_meta rest lvl (processElem e lvl s))
end


/-! ## C8: list scope isolation -/

/-- The `li` branch of the dispatch, unfolded: with a current list
context on the stack, it bumps the scope's position counter and appends
one list-item block carrying the bumped position. -/
theorem processElem_li (tag : String) (attrs : List (String × String)) (cs : HNodes)
    (lvl : Nat) (s : PState) (cur : ListCtx)
    (htag : jsToLower tag = "li") (hst : s.listStack.getLast? = some cur) :
    processElem (.mk tag attrs cs) lvl s =
      procNestedLists cs cur.nestingLevel
        ⟨s.blocks ++ [createBlock tag attrs (removeListChildren cs) true
            (some ⟨cur.ordered, cur.nestingLevel,
               trackerGet s.positionTracker (getPositionKey cur.ordered cur.nestingLevel) + 1⟩)
            (some (jsTrim (collapseWs (textContentNodes (removeListChildren cs)))))],
         s.listStack,
         trackerSet s.positionTracker (getPositionKey cur.ordered cur.nestingLevel)
           (trackerGet s.positionTracker (getPositionKey cur.ordered cur.nestingLevel) + 1)⟩ := by
  unfold processElem
  rw [htag]
  rw [hst]
  rfl

/-- The `ul`/`ol` branch of the dispatch, unfolded: the position-tracker
entry for the `(ordered, level)` scope is reset to 0 before the list's
element children are processed. -/
theorem processElem_listTag (tag : String) (attrs : List (String × String)) (cs : HNodes)
    (lvl : Nat) (s : PState) (b : Bool)
    (htag : jsToLower tag = (if b then "ol" else "ul")) :
    processElem (.mk tag attrs cs) lvl s =
      (let s2 := procChildrenElems cs lvl
         ⟨s.blocks, s.listStack ++ [⟨b, lvl, 0⟩],
          trackerSet s.positionTracker (getPositionKey b lvl) 0⟩
       ⟨s2.blocks, s2.listStack.dropLast, s2.positionTracker⟩) := by
  cases b
  · unfold processElem
    rw [show jsToLower tag = "ul" from htag]
    rfl
  · unfold processElem
    rw [show jsToLower tag = "ol" from htag]
    rfl

/-- C8: processing a `ul`/`ol` element whose first child is an `li`
resets the `(ordered, nestingLevel)` position counter, so the first item
is emitted with `position = 1` regardless of any counter value a sibling
list left behind in the tracker; concretely, two sibling `ul`s separated
by a paragraph both start at position 1. -/
theorem c8_list_scope_isolation (ordered : Bool) (attrs liAttrs : List (String × String))
    (liChildren rest : HNodes) (lvl : Nat) (s : PState) :
    (s.blocks.length <
       (processElem (.mk (if ordered then "ol" else "ul") attrs
           (.cons (.elem (.mk "li" liAttrs liChildren)) rest)) lvl s).blocks.length
     ∧ ((processElem (.mk (if ordered then "ol" else "ul") attrs
           (.cons (.elem (.mk "li" liAttrs liChildren)) rest)) lvl s).blocks.get?
          s.blocks.length).map blockMeta =
         some (some ⟨ordered, lvl, 1⟩, true))
    ∧ (parseHtmlToBlocks siblingListsDoc).map (fun b => (b.text, b.listInfo)) =
        [("One", some ⟨false, 0, 1⟩), ("Two", some ⟨false, 0, 2⟩),
         ("mid", none), ("Uno", some ⟨false, 0, 1⟩)] := by
  constructor
  · have htag : jsToLower (if ordered then "ol" else "ul") = (if ordered then "ol" else "ul") := by
      cases ordered <;> rfl
    rw [processElem_listTag _ attrs (.cons (.elem (.mk "li" liAttrs liChildren)) rest) lvl s
      ordered htag]
    dsimp only
    rw [show procChildrenElems (.cons (.elem (.mk "li" liAttrs liChildren)) rest) lvl
        ⟨s.blocks, s.listStack ++ [⟨ordered, lvl, 0⟩],
         trackerSet s.positionTracker (getPositionKey ordered lvl) 0⟩ =
      procChildrenElems rest lvl
        (processElem (.mk "li" liAttrs liChildren) lvl
          ⟨s.blocks, s.listStack ++ [⟨ordered, lvl, 0⟩],
           trackerSet s.positionTracker (getPositionKey ordered lvl) 0⟩) from rfl]
    rw [processElem_li "li" liAttrs liChildren lvl _ ⟨ordered, lvl, 0⟩ rfl
      (List.getLast?_concat _)]
    dsimp only
    rw [trackerGet_set]
    have hM := MetaExt.trans
      (procNestedLists_meta liChildren lvl
        ⟨s.blocks ++ [createBlock "li" liAttrs (removeListChildren liChildren) true
            (some ⟨ordered, lvl, 0 + 1⟩)
            (some (jsTrim (collapseWs (textContentNodes (removeListChildren liChildren)))))],
         s.listStack ++ [⟨ordered, lvl, 0⟩],
         trackerSet (trackerSet s.positionTracker (getPositionKey ordered lvl) 0)
           (getPositionKey ordered lvl) (0 + 1)⟩)
      (procChildrenElems_meta rest lvl _)
    constructor
    · have h1 := hM.1
      simp only [List.length_append, List.length_cons, List.length_nil] at h1
      omega
    · have h2 := hM.2 s.blocks.length (by simp)
      rw [h2, List.get?_concat_length]
      rfl
  · decide

/-! ## C5: no trailing block separator -/

theorem noNl_append (a b : String) : noNl (a ++ b) = (noNl a && noNl b) := by
  cases a with
  | mk l1 =>
    cases b with
    | mk l2 =>
      simp [noNl, String.toList, String.append, List.all_append]

theorem noNl_of_mem_imp {s t : String}
    (hsub : ∀ c, c ∈ s.toList → c ∈ t.toList ∨ c = ' ')
    (h : noNl t = true) : noNl s = true := by
  simp only [noNl, List.all_eq_true, decide_eq_true_eq] at *
  intro c hc
  rcases hsub c hc with h1 | h1
  · exact h c h1
  · subst h1; decide

theorem noNl_rtrim (s : String) (h : noNl s = true) : noNl (rtrim s) = true := by
  refine noNl_of_mem_imp (fun c hc => .inl ?_) h
  simp only [rtrim, String.toList] at hc
  have := (List.dropWhile_sublist _).subset (List.mem_reverse.mp hc)
  exact List.mem_reverse.mp this

theorem noNl_ltrim (s : String) (h : noNl s = true) : noNl (ltrim s) = true := by
  refine noNl_of_mem_imp (fun c hc => .inl ?_) h
  simp only [ltrim, String.toList] at hc
  exact (List.dropWhile_sublist _).subset hc

theorem noNl_jsTrim (s : String) (h : noNl s = true) : noNl (jsTrim s) = true :=
  noNl_ltrim _ (noNl_rtrim _ h)

theorem mem_collapseAux (c : Char) : ∀ (b : Bool) (l : List Char),
    c ∈ collapseAux b l → c = ' ' ∨ c ∈ l := by
  intro b l
  induction l generalizing b with
  | nil => intro h; simp [collapseAux] at h
  | cons hd tl ih =>
    intro h
    simp only [collapseAux] at h
    split at h
    · split at h
      · rcases ih _ h with h1 | h1
        · exact .inl h1
        · exact .inr (List.mem_cons_of_mem _ h1)
      · rcases List.mem_cons.mp h with h1 | h1
        · exact .inl h1
        · rcases ih _ h1 with h2 | h2
          · exact .inl h2
          · exact .inr (List.mem_cons_of_mem _ h2)
    · rcases List.mem_cons.mp h with h1 | h1
      · subst h1; exact .inr (List.mem_cons_self _ _)
      · rcases ih _ h1 with h2 | h2
        · exact .inl h2
        · exact .inr (List.mem_cons_of_mem _ h2)

theorem noNl_collapseWs (s : String) (h : noNl s = true) : noNl (collapseWs s) = true := by
  refine noNl_of_mem_imp (fun c hc => ?_) h
  simp only [collapseWs, String.toList] at hc
  rcases mem_collapseAux c false s.data hc with h1 | h1
  · exact .inr h1
  · exact .inl h1

theorem endsWithNl_eq_false_of_noNl (s : String) (h : noNl s = true) :
    endsWithNl s = false := by
  unfold endsWithNl
  cases hl : s.toList.getLast? with
  | none => rfl
  | some c =>
    have hcm : c ∈ s.toList.getLast? := Option.mem_def.mpr hl
    obtain ⟨hne, hceq⟩ := List.mem_getLast?_eq_getLast hcm
    have hc : c ∈ s.toList := hceq ▸ List.getLast_mem hne
    simp only [noNl, List.all_eq_true, decide_eq_true_eq] at h
    simpa using h c hc

theorem cleanNodes_cons_iff (n : HNode) (rest : HNodes) :
    cleanNodes (.cons n rest) = true ↔ cleanNode n = true ∧ cleanNodes rest = true := by
  simp [cleanNodes, Bool.and_eq_true]

theorem cleanElem_mk_iff (tag : String) (attrs : List (String × String)) (cs : HNodes) :
    cleanElem (.mk tag attrs cs) = true ↔ jsToLower tag ≠ "br" ∧ cleanNodes cs = true := by
  simp [cleanElem, Bool.and_eq_true]

mutual
theorem noNl_tcNodes : ∀ (ns : HNodes), cleanNodes ns = true →
    noNl (textContentNodes ns) = true
  | .nil, _ => by decide
  | .cons n rest, h => by
    have h1 := (cleanNodes_cons_iff n rest).mp h
    rw [show textContentNodes (.cons n rest) =
        textContentNode n ++ textContentNodes rest from rfl, noNl_append,
      noNl_tcNode n h1.1, noNl_tcNodes rest h1.2]
    rfl
theorem noNl_tcNode : ∀ (n : HNode), cleanNode n = true →
    noNl (textContentNode n) = true
  | .text d, h => by simpa [cleanNode, noNl, textContentNode] using h
  | .elem e, h => noNl_tcElem e (by simpa [cleanNode] using h)
theorem noNl_tcElem : ∀ (e : HElem), cleanElem e = true →
    noNl (textContentElem e) = true
  | .mk t a c, h => noNl_tcNodes c ((cleanElem_mk_iff t a c).mp h).2
end

theorem cleanNodes_removeListChildren : ∀ (ns : HNodes), cleanNodes ns = true →
    cleanNodes (removeListChildren ns) = true
  | .nil, _ => rfl
  | .cons n rest, h => by
    have h1 := (cleanNodes_cons_iff n rest).mp h
    cases n with
    | text d =>
      rw [show removeListChildren (.cons (.text d) rest) =
          .cons (.text d) (removeListChildren rest) from rfl]
      exact (cleanNodes_cons_iff _ _).mpr ⟨h1.1, cleanNodes_removeListChildren rest h1.2⟩
    | elem e =>
      simp only [removeListChildren]
      split
      · exact cleanNodes_removeListChildren rest h1.2
      · exact (cleanNodes_cons_iff _ _).mpr ⟨h1.1, cleanNodes_removeListChildren rest h1.2⟩

mutual
theorem clean_findInNodes : ∀ (t : String) (ns : HNodes), cleanNodes ns = true →
    ∀ e ∈ findInNodes t ns, cleanElem e = true
  | _, .nil, _, e, he => by simp [findInNodes] at he
  | t, .cons n rest, h, e, he => by
    have h1 := (cleanNodes_cons_iff n rest).mp h
    rw [show findInNodes t (.cons n rest) =
        findInNode t n ++ findInNodes t rest from rfl] at he
    rcases List.mem_append.mp he with h2 | h2
    · exact clean_findInNode t n h1.1 e h2
    · exact clean_findInNodes t rest h1.2 e h2
theorem clean_findInNode : ∀ (t : String) (n : HNode), cleanNode n = true →
    ∀ e ∈ findInNode t n, cleanElem e = true
  | _, .text _, _, e, he => by simp [findInNode] at he
  | t, .elem e0, h, e, he => by
    have h0 : cleanElem e0 = true := by simpa [cleanNode] using h
    rw [show findInNode t (.elem e0) =
        (if jsToLower e0.tag = t then [e0] else []) ++ findInElem t e0 from rfl] at he
    rcases List.mem_append.mp he with h2 | h2
    · split at h2
      · rcases List.mem_cons.mp h2 with h3 | h3
        · subst h3; exact h0
        · simp at h3
      · simp at h2
    · exact clean_findInElem t e0 h0 e h2
theorem clean_findInElem : ∀ (t : String) (e0 : HElem), cleanElem e0 = true →
    ∀ e ∈ findInElem t e0, cleanElem e = true
  | t, .mk tg a c, h, e, he =>
    clean_findInNodes t c ((cleanElem_mk_iff tg a c).mp h).2 e he
end

theorem collectNodes_cons_fst (n : HNode) (rest : HNodes) (curLen : Nat) :
    (collectNodes (.cons n rest) curLen).1 =
      (collectContent n curLen).1 ++
        (collectNodes rest (curLen + (collectContent n curLen).1.length)).1 := by
  conv_lhs => rw [collectNodes]

theorem collectElem_fst (tag : String) (attrs : List (String × String)) (cs : HNodes)
    (curLen : Nat) :
    (collectElem (.mk tag attrs cs) curLen).1 = (collectNodes cs curLen).1 := by
  unfold collectElem
  cases collectNodes cs curLen with
  | mk t s => rfl

mutual
theorem noNl_collectNodes : ∀ (ns : HNodes) (curLen : Nat), cleanNodes ns = true →
    noNl (collectNodes ns curLen).1 = true
  | .nil, curLen, _ => rfl
  | .cons n rest, curLen, h => by
    have h1 := (cleanNodes_cons_iff n rest).mp h
    rw [collectNodes_cons_fst, noNl_append,
      noNl_collectContent n curLen h1.1,
      noNl_collectNodes rest (curLen + (collectContent n curLen).1.length) h1.2]
    rfl
theorem noNl_collectElem : ∀ (e : HElem) (curLen : Nat), cleanElem e = true →
    noNl (collectElem e curLen).1 = true
  | .mk t a c, curLen, h => by
    rw [collectElem_fst]
    exact noNl_collectNodes c curLen ((cleanElem_mk_iff t a c).mp h).2
theorem noNl_collectContent : ∀ (n : HNode) (curLen : Nat), cleanNode n = true →
    noNl (collectContent n curLen).1 = true
  | .text d, _, h => by simpa [collectContent, noNl, cleanNode] using h
  | .elem (.mk t a c), curLen, h => by
    have h0 := (cleanElem_mk_iff t a c).mp (by simpa [cleanNode] using h)
    simp only [collectContent]
    rw [if_neg]
    · exact noNl_collectElem (.mk t a c) curLen (by simpa [cleanNode] using h)
    · exact h0.1
end

theorem createBlock_text_none (tag : String) (attrs : List (String × String))
    (cs : HNodes) (isList : Bool) (li : Option ListInfo) :
    (createBlock tag attrs cs isList li none).text =
      (collectElem (.mk tag attrs cs) 0).1 := by
  unfold createBlock
  cases collectElem (.mk tag attrs cs) 0 with
  | mk t s => rfl

theorem createBlock_text_some (tag : String) (attrs : List (String × String))
    (cs : HNodes) (isList : Bool) (li : Option ListInfo) (txt : String) :
    (createBlock tag attrs cs isList li (some txt)).text = txt := by
  unfold createBlock
  cases collectElem (.mk tag attrs cs) 0 with
  | mk t s => rfl

theorem noNl_createBlock (tag : String) (attrs : List (String × String))
    (cs : HNodes) (isList : Bool) (li : Option ListInfo)
    (h : cleanNodes cs = true) :
    noNl (createBlock tag attrs cs isList li none).text = true := by
  rw [createBlock_text_none, collectElem_fst]
  exact noNl_collectNodes cs 0 h

theorem clean_findDesc (t : String) (e : HElem) (h : cleanElem e = true) :
    ∀ e' ∈ findDesc t e, cleanElem e' = true := by
  cases e with
  | mk tg a c =>
    intro e' he'
    exact clean_findInNodes t c ((cleanElem_mk_iff tg a c).mp h).2 e'
      (by simpa [findDesc, HElem.children] using he')

theorem noNl_tableBlocks (e : HElem) (h : cleanElem e = true) :
    ∀ b ∈ tableBlocks e, noNl b.text = true := by
  intro b hb
  simp only [tableBlocks, List.mem_flatMap, List.mem_map] at hb
  obtain ⟨rc, hrc, cc, hcc, hbeq⟩ := hb
  have hrc' : rc ∈ List.zip (List.range (findDesc "tr" e).length) (findDesc "tr" e) := by
    rw [← List.enum_eq_zip_range]; exact hrc
  have hrc2 : rc.2 ∈ findDesc "tr" e := (List.of_mem_zip hrc').2
  have hcc' : cc ∈ List.zip (List.range (findDesc "td" rc.2).length) (findDesc "td" rc.2) := by
    rw [← List.enum_eq_zip_range]; exact hcc
  have hcc2 : cc.2 ∈ findDesc "td" rc.2 := (List.of_mem_zip hcc').2
  have htr : cleanElem rc.2 = true := clean_findDesc "tr" e h rc.2 hrc2
  have htd : cleanElem cc.2 = true := clean_findDesc "td" rc.2 htr cc.2 hcc2
  cases hcell : cc.2 with
  | mk t a c =>
    rw [hcell] at hbeq htd
    subst hbeq
    have : ({ createBlock t a c false none none with
        tableInfo := some ⟨rc.1, cc.1, parseSpanAttr (attrOf a "rowspan"),
          parseSpanAttr (attrOf a "colspan")⟩ } : DocumentBlock).text =
        (createBlock t a c false none none).text := rfl
    rw [this]
    exact noNl_createBlock t a c false none ((cleanElem_mk_iff t a c).mp htd).2

theorem noNl_push (s : PState) (hP : ∀ b ∈ s.blocks, noNl b.text = true)
    (b0 : DocumentBlock) (h0 : noNl b0.text = true) :
    ∀ b ∈ s.blocks ++ [b0], noNl b.text = true := by
  intro b hb
  rcases List.mem_append.mp hb with h1 | h1
  · exact hP b h1
  · rcases List.mem_cons.mp h1 with h2 | h2
    · rw [h2]; exact h0
    · simp at h2

mutual
theorem processNode_noNl : (n : HNode) → (lvl : Nat) → (s : PState) →
    cleanNode n = true → (∀ b ∈ s.blocks, noNl b.text = true) →
    ∀ b ∈ (processNode n lvl s).blocks, noNl b.text = true
  | .text d, lvl, s, h, hP => by
    show ∀ b ∈ (if jsTrim d = "" then s
        else { s with blocks :=
          s.blocks ++ [⟨jsTrim d, ⟨"NORMAL_TEXT"⟩, none, false, none, none⟩] }).blocks,
      noNl b.text = true
    split_ifs
    · exact hP
    · exact noNl_push s hP ⟨jsTrim d, ⟨"NORMAL_TEXT"⟩, none, false, none, none⟩
        (noNl_jsTrim d h)
  | .elem e, lvl, s, h, hP => processElem_noNl e lvl s h hP

theorem processElem_noNl : (e : HElem) → (lvl : Nat) → (s : PState) →
    cleanElem e = true → (∀ b ∈ s.blocks, noNl b.text = true) →
    ∀ b ∈ (processElem e lvl s).blocks, noNl b.text = true
  | .mk tag attrs cs, lvl, s, h, hP => by
    have hcs : cleanNodes cs = true := ((cleanElem_mk_iff tag attrs cs).mp h).2
    have hbr : jsToLower tag ≠ "br" := ((cleanElem_mk_iff tag attrs cs).mp h).1
    unfold processElem
    split <;>
      first
        | exact noNl_push s hP (createBlock tag attrs cs false none none)
            (noNl_createBlock tag attrs cs false none hcs)
        | (intro b hb
           rcases List.mem_append.mp hb with h1 | h1
           · exact hP b h1
           · exact noNl_tableBlocks _ h b h1)
        | exact procChildrenElems_noNl cs lvl
            ⟨s.blocks, s.listStack ++ [⟨decide (jsToLower tag = "ol"), lvl, 0⟩],
             trackerSet s.positionTracker
               (getPositionKey (decide (jsToLower tag = "ol")) lvl) 0⟩ hcs hP
        | exact absurd (by assumption) hbr
        | exact procContents_noNl cs lvl s hcs hP
        | (dsimp only
           split
           · exact hP
           · refine procNestedLists_noNl cs _ _ hcs ?_
             refine noNl_push s hP _ ?_
             rw [createBlock_text_some]
             exact noNl_jsTrim _ (noNl_collapseWs _
               (noNl_tcNodes _ (cleanNodes_removeListChildren cs hcs))))

theorem procChildrenElems_noNl : (ns : HNodes) → (lvl : Nat) → (s : PState) →
    cleanNodes ns = true → (∀ b ∈ s.blocks, noNl b.text = true) →
    ∀ b ∈ (procChildrenElems ns lvl s).blocks, noNl b.text = true
  | .nil, _, _, _, hP => hP
  | .cons (.text _) rest, lvl, s, h, hP =>
    procChildrenElems_noNl rest lvl s ((cleanNodes_cons_iff _ rest).mp h).2 hP
  | .cons (.elem e) rest, lvl, s, h, hP =>
    procChildrenElems_noNl rest lvl (processElem e lvl s)
      ((cleanNodes_cons_iff _ rest).mp h).2
      (processElem_noNl e lvl s ((cleanNodes_cons_iff _ rest).mp h).1 hP)

theorem procNestedLists_noNl : (ns : HNodes) → (parentLevel : Nat) → (s : PState) →
    cleanNodes ns = true → (∀ b ∈ s.blocks, noNl b.text = true) →
    ∀ b ∈ (procNestedLists ns parentLevel s).blocks, noNl b.text = true
  | .nil, _, _, _, hP => hP
  | .cons (.text _) rest, pl, s, h, hP =>
    procNestedLists_noNl rest pl s ((cleanNodes_cons_iff _ rest).mp h).2 hP
  | .cons (.elem e) rest, pl, s, h, hP =>
    procNestedLists_noNl rest pl _ ((cleanNodes_cons_iff _ rest).mp h).2
      (by
        dsimp only
        split_ifs
        · exact processElem_noNl e (pl + 1)
            ⟨s.blocks, s.listStack ++ [⟨decide (jsToLower e.tag = "ol"), pl + 1, 0⟩],
             trackerSet s.positionTracker
               (getPositionKey (decide (jsToLower e.tag = "ol")) (pl + 1)) 0⟩
            ((cleanNodes_cons_iff _ rest).mp h).1 hP
        · exact hP)

theorem procContents_noNl : (ns : HNodes) → (lvl : Nat) → (s : PState) →
    cleanNodes ns = true → (∀ b ∈ s.blocks, noNl b.text = true) →
    ∀ b ∈ (procContents ns lvl s).blocks, noNl b.text = true
  | .nil, _, _, _, hP => hP
  | .cons (.text d) rest, lvl, s, h, hP =>
    procContents_noNl rest lvl _ ((cleanNodes_cons_iff _ rest).mp h).2
      (by
        dsimp only
        split_ifs
        · exact noNl_push s hP ⟨jsTrim d, ⟨"NORMAL_TEXT"⟩, none, false, none, none⟩
            (noNl_jsTrim d ((cleanNodes_cons_iff _ rest).mp h).1)
        · exact hP)
  | .cons (.elem e) rest, lvl, s, h, hP =>
    procContents_noNl rest lvl (processElem e lvl s)
      ((cleanNodes_cons_iff _ rest).mp h).2
      (processElem_noNl e lvl s ((cleanNodes_cons_iff _ rest).mp h).1 hP)
end

/-- C5: the spec's invariant fails in two documented ways (a root-level
line break appends the separator to the previous block's text, and a
line break inside a block context leaves one in the collected text), but
it does hold for documents with no line-break tags and no literal
newlines in text data: no extracted block's text then ends with the
block-separator newline, which is appended only during request
generation. -/
theorem c5_no_trailing_separator_amended (ns : HNodes)
    (h : cleanNodes ns = true) :
    ∀ b ∈ parseHtmlToBlocks ns, endsWithNl b.text = false := by
  intro b hb
  have hclean : cleanNode (.elem (.mk "body" [] ns)) = true := h
  have hno := processNode_noNl (.elem (.mk "body" [] ns)) 0 ⟨[], [], []⟩ hclean
    (by intro b hb; exact absurd hb (List.not_mem_nil b)) b
    (by simpa [parseHtmlToBlocks] using hb)
  exact endsWithNl_eq_false_of_noNl _ hno

/-- Witness for C5 on `<p>Hi</p>`: a clean document whose only block
does not end with a newline. -/
theorem c5_no_trailing_separator_amended_witness :
    cleanNodes plainDoc = true ∧
      ∀ b ∈ parseHtmlToBlocks plainDoc, endsWithNl b.text = false :=
  ⟨by decide, c5_no_trailing_separator_amended plainDoc (by decide)⟩

/-- Counterexample to the literal invariant: a root-level `<br>` after
`<p>Hi</p>` appends a newline to the previous block, whose text then
ends with the block separator. -/
theorem c5_counterexample :
    (parseHtmlToBlocks brDoc).map (fun b => (b.text, endsWithNl b.text)) =
      [("Hi\n", true)] := by decide

end GDoc
